/-
  Verification of the TOPAY-Z512 core against its specification.

  Shallow embedding of the Rust sources:
    src/rust/src/params.rs    — parameter constants
    src/rust/src/utils.rs     — modular arithmetic, matrix codec, seeded rng
    src/rust/src/lwe.rs       — LWE keygen / encrypt / decrypt
    src/rust/src/kem.rs       — hash-based KEM facade
    src/rust/src/fragment.rs  — fragmentation engine

  Conventions:
  * Machine integers (u8/u16/u32) are modelled as Nat with explicit `% 2^w`
    where the code truncates (`val as u16`); all in-range arithmetic in the
    source fits its machine type, so plain Nat arithmetic is exact elsewhere.
  * `Vec<u8>` is `List Nat`, `Vec<u32>` is `List Nat`,
    `Vec<Vec<u32>>` is `List (List Nat)`; indexing `v[i]` is `List.getD i 0`.
  * The lattice dimension appears as an explicit argument `n` of the LWE
    functions; the repository instantiates it with the constant `N = 1024`.
  * The external hash collaborator (`DefaultHasher`-based `Hash::new`,
    `Hash::combine`, `Hash::concat` — std library internals, outside the
    repository per spec §1) is an arbitrary function parameter.
  * Randomness produced through floating-point Box–Muller sampling is not
    embeddable; sampled vectors are explicit parameters ranging over the
    sampler's codomain ([0, Q) entries), and the ChaCha20 state is modelled
    as the 32 seed bytes that determine it.
-/
import Mathlib

namespace TZ

/-! ## params.rs -/

/-- `N`: lattice dimension (params.rs). -/
def N : Nat := 1024

/-- `Q`: prime modulus 2^16 + 1 (params.rs). -/
def Q : Nat := 65537

/-- `SEED_LENGTH` (params.rs). -/
def SEED_LENGTH : Nat := 32

/-- `COEFF_BITS` (params.rs). -/
def COEFF_BITS : Nat := 16

/-- `COEFF_BYTES = (COEFF_BITS + 7) / 8` (params.rs). -/
def COEFF_BYTES : Nat := (COEFF_BITS + 7) / 8

/-- `PUBLIC_KEY_BYTES = N * N * COEFF_BYTES + SEED_LENGTH` (params.rs, line 28). -/
def PUBLIC_KEY_BYTES : Nat := N * N * COEFF_BYTES + SEED_LENGTH

/-- `SECRET_KEY_BYTES = N * COEFF_BYTES + SEED_LENGTH` (params.rs). -/
def SECRET_KEY_BYTES : Nat := N * COEFF_BYTES + SEED_LENGTH

/-- Modelled from the spec: the LWE crate's `Error` enum (used by lwe.rs and
utils.rs via `crate::error::Error`) is not under src/ — only its uses are;
spec §7 lists exactly these kinds. -/
inductive Error where
  | InvalidParameter (msg : String)
  | InvalidKeyFormat (msg : String)
  | InvalidCiphertextFormat (msg : String)
  | RandomGeneration (msg : String)
  | Encapsulation (msg : String)
  | Decapsulation (msg : String)
deriving DecidableEq, Repr

/-! ## utils.rs — modular arithmetic -/

/-- `mod_add(a, b) = (a + b) % Q` (utils.rs line 133). -/
def mod_add (a b : Nat) : Nat := (a + b) % Q

/-- `mod_sub(a, b) = (a + Q - (b % Q)) % Q` (utils.rs line 147). -/
def mod_sub (a b : Nat) : Nat := (a + Q - b % Q) % Q

/-- `mod_mul(a, b) = (a * b) % Q` (utils.rs line 161; the u64 widening makes
the Nat product exact). -/
def mod_mul (a b : Nat) : Nat := (a * b) % Q

/-! ## utils.rs — matrix codec -/

/-- `LittleEndian::write_u16(buf, val as u16)`: the two little-endian bytes of
`val` truncated to 16 bits (utils.rs lines 84-85). -/
def enc2 (v : Nat) : List Nat := [v % 65536 % 256, v % 65536 / 256]

/-- `encode_matrix` (utils.rs lines 77-91): row-major, 2 bytes per entry. -/
def encode_matrix (matrix : List (List Nat)) : List Nat :=
  (matrix.map (fun row => (row.map enc2).flatten)).flatten

/-- `LittleEndian::read_u16(&bytes[idx..idx+2]) as u32` (utils.rs line 116). -/
def read16 (bytes : List Nat) (idx : Nat) : Nat :=
  bytes.getD idx 0 + 256 * bytes.getD (idx + 1) 0

/-- `decode_matrix` (utils.rs lines 104-121). -/
def decode_matrix (bytes : List Nat) (rows cols : Nat) :
    Except Error (List (List Nat)) :=
  if bytes.length < rows * cols * 2 then
    .error (.InvalidParameter "Byte array is too small for the specified matrix dimensions")
  else
    .ok ((List.range rows).map (fun i =>
      (List.range cols).map (fun j => read16 bytes (2 * (i * cols + j)))))

/-- `create_seeded_rng` (utils.rs lines 55-66): rejects seeds shorter than 32
bytes, otherwise the ChaCha20 state is exactly the first 32 seed bytes. -/
def create_seeded_rng (seed : List Nat) : Except Error (List Nat) :=
  if seed.length < 32 then
    .error (.RandomGeneration "Seed must be at least 32 bytes long")
  else
    .ok (seed.take 32)

/-! ## lwe.rs -/

/-- `v[i]`: vector indexing (`Vec<u32>` access with in-range indices). -/
def idx (v : List Nat) (i : Nat) : Nat := v.getD i 0

/-- `m[i][j]`: matrix indexing. -/
def idx2 (m : List (List Nat)) (i j : Nat) : Nat := (m.getD i []).getD j 0

/-- The mod-accumulating inner loops `acc = mod_add(acc, mod_mul(x_i, y_i))`
for `i in 0..n` (lwe.rs lines 49-54, 102-105, 174-177). -/
def modDot (n : Nat) (x y : Nat → Nat) : Nat :=
  (List.range n).foldl (fun acc i => mod_add acc (mod_mul (x i) (y i))) 0

/-- `keygen_with_seed` body after sampling: `b[i] = (Σ_j A[i][j]·s[j]) + e[i]`,
accumulated with `mod_add`/`mod_mul` (lwe.rs lines 48-54). -/
def keygenB (n : Nat) (a : List (List Nat)) (s e : List Nat) : List Nat :=
  (List.range n).map (fun i =>
    mod_add (modDot n (fun j => idx2 a i j) (fun j => idx s j)) (idx e i))

/-- `keygen_with_seed` (lwe.rs lines 34-57).  The ChaCha20-driven Box–Muller
sampling of `A`, `s`, `e` uses floating point and std internals; it is an
arbitrary function `sampler` of the 32-byte rng state (the code derives all
three from the single rng created from `seed[0..32]`). -/
def keygen_with_seed (n : Nat)
    (sampler : List Nat → List (List Nat) × List Nat × List Nat)
    (seed : List Nat) :
    Except Error (List (List Nat) × List Nat × List Nat) := do
  let st ← create_seeded_rng seed
  let (a, s, e) := sampler st
  let b := keygenB n a s e
  .ok (a, b, s)

/-- `message_val |= byte << (i * 8)` over the message bytes (lwe.rs 119-122). -/
def packLE (msg : List Nat) : Nat :=
  msg.enum.foldl (fun acc p => acc ||| (p.2 <<< (p.1 * 8))) 0

/-- `encrypt` (lwe.rs lines 70-136), with the lattice dimension `n` explicit
(the source fixes `n = N`) and the Gaussian vector `r` that
`random_error_vector` would produce passed as a parameter (its sampling is
floating-point; its entries lie in `[0, Q)`).  The per-column accumulation
`v[j] += r[i]*a[i][j]` touches each slot `j` independently, so the `i`-outer
loop is rendered as a per-`j` fold in the same `i` order. -/
def encrypt (n : Nat) (public_key_bytes message seed : List Nat)
    (r : List Nat) : Except Error (List Nat) :=
  let a_size := n * n * 2
  let b_size := n * 2
  if public_key_bytes.length < a_size + b_size then
    .error (.InvalidKeyFormat "Public key bytes are too short")
  else do
    let a_bytes := public_key_bytes.take a_size
    let b_bytes := (public_key_bytes.drop a_size).take b_size
    let a ← decode_matrix a_bytes n n
    let brow ← decode_matrix b_bytes 1 n
    let b := brow.getD 0 []
    let _rng ← create_seeded_rng seed
    let v := (List.range n).map (fun j => modDot n (fun i => idx r i) (fun i => idx2 a i j))
    let c0 := modDot n (fun i => idx r i) (fun i => idx b i)
    let message_bits := message.length * 8
    let bits_per_coeff := Nat.log2 Q - 1
    let coeffs_needed := (message_bits + bits_per_coeff - 1) / bits_per_coeff
    if coeffs_needed > 1 then
      .error (.Encapsulation "Message is too large for single coefficient encryption")
    else
      let message_val := packLE message
      let scaling_factor := Q / 256
      let encoded_message := message_val * scaling_factor % Q
      let c := mod_add c0 encoded_message
      .ok (v ++ [c])

/-- The value of the vector `v = r·A` computed by `encrypt` (lwe.rs 94-99);
named so that theorems can speak about the produced ciphertext. -/
def lweV (n : Nat) (a : List (List Nat)) (r : List Nat) : List Nat :=
  (List.range n).map (fun j => modDot n (fun i => idx r i) (fun i => idx2 a i j))

/-- The value of the scalar `c = r·b + encode(message)` computed by `encrypt`
(lwe.rs 101-129). -/
def lweC (n : Nat) (b r message : List Nat) : Nat :=
  mod_add (modDot n (fun i => idx r i) (fun i => idx b i))
    (packLE message * (Q / 256) % Q)

/-- The byte-emission loop of `decrypt` (lwe.rs lines 186-192):
`while remaining > 0 { push low byte; shift }` for positive values. -/
def leBytesCore (v : Nat) : List Nat :=
  if v = 0 then [] else v % 256 :: leBytesCore (v / 256)
decreasing_by exact Nat.div_lt_self (Nat.pos_of_ne_zero (by assumption)) (by omega)

/-- `decrypt`'s message byte conversion: the loop also runs once when the
accumulator is empty, so the value 0 yields `[0]` (lwe.rs lines 186-192). -/
def leBytes (v : Nat) : List Nat :=
  if v = 0 then [0] else leBytesCore v

/-- `decrypt` (lwe.rs lines 148-195). -/
def decrypt (n : Nat) (ciphertext_bytes secret_key_bytes : List Nat) :
    Except Error (List Nat) :=
  let ct_size := (n + 1) * 2
  if ciphertext_bytes.length < ct_size then
    .error (.InvalidCiphertextFormat "Ciphertext bytes are too short")
  else do
    let ctm ← decode_matrix ciphertext_bytes 1 (n + 1)
    let ciphertext := ctm.getD 0 []
    let v := ciphertext.take n
    let c := idx ciphertext n
    let sk_size := n * 2
    if secret_key_bytes.length < sk_size then
      .error (.InvalidKeyFormat "Secret key bytes are too short")
    else do
      let sm ← decode_matrix secret_key_bytes 1 n
      let s := sm.getD 0 []
      let vs := modDot n (fun i => idx v i) (fun i => idx s i)
      let m := mod_sub c vs
      let scaling_factor := Q / 256
      let message_val := (m + scaling_factor / 2) / scaling_factor
      .ok (leBytes message_val)

/-! ## kem.rs — the hash-based KEM facade

`Hash::new` and `Hash::combine` expand a `DefaultHasher` (std internals,
outside the repository); they enter as arbitrary function parameters
`hnew`/`hcombine`, and the entropy the code draws (`secret_bytes`,
`ephemeral`) as explicit byte-list parameters. -/

/-- `Kem::keygen` (kem.rs lines 99-119): the secret key is the drawn entropy,
the public key is `Hash::new(secret_bytes)`. -/
def Kem.keygen (hnew : List Nat → List Nat) (secret_bytes : List Nat) :
    List Nat × List Nat :=
  (hnew secret_bytes, secret_bytes)

/-- `Kem::encapsulate` (kem.rs lines 123-147): ciphertext is the ephemeral
entropy itself; shared secret is `Hash::combine(ephemeral, pk)`. -/
def Kem.encapsulate (hcombine : List Nat → List Nat → List Nat)
    (public_key ephemeral : List Nat) : List Nat × List Nat :=
  (ephemeral, hcombine ephemeral public_key)

/-- `Kem::decapsulate` (kem.rs lines 151-165): re-derives the public key as
`Hash::new(sk)` and recomputes `Hash::combine(ciphertext, pk)`. -/
def Kem.decapsulate (hnew : List Nat → List Nat)
    (hcombine : List Nat → List Nat → List Nat)
    (secret_key ciphertext : List Nat) : List Nat :=
  hcombine ciphertext (hnew secret_key)

/-! ## error.rs -/

/-- `TopayzError` (error.rs lines 13-28). -/
inductive TopayzError where
  | InvalidInput (msg : String)
  | InvalidKey (msg : String)
  | InvalidHash (msg : String)
  | CryptoError (msg : String)
  | SerializationError (msg : String)
  | RandomError (msg : String)
  | FragmentationError (msg : String)
deriving DecidableEq, Repr

/-! ## fragment.rs

`Hash` digests are byte lists; `Hash::new` is the abstract parameter `h`
and `Hash::concat` the abstract parameter `hconcat` (both wrap std's
`DefaultHasher`, outside the repository). -/

/-- `FRAGMENT_SIZE` (fragment.rs line 19). -/
def FRAGMENT_SIZE : Nat := 512

/-- `MAX_FRAGMENTS` (fragment.rs line 22). -/
def MAX_FRAGMENTS : Nat := 128

/-- `Fragment` (fragment.rs lines 29-38). -/
structure Fragment where
  index : Nat
  total : Nat
  data : List Nat
  hash : List Nat
deriving DecidableEq, Repr

instance : Inhabited Fragment := ⟨⟨0, 0, [], []⟩⟩

/-- `FragmentedResult` (fragment.rs lines 42-47). -/
structure FragmentedResult where
  fragments : List Fragment
  combined_hash : List Nat
deriving DecidableEq, Repr

/-- `Fragment::verify_fast` (fragment.rs lines 280-284): recompute the digest
of the data and compare with the stored one. -/
def Fragment.verify_fast (h : List Nat → List Nat) (f : Fragment) : Bool :=
  h f.data == f.hash

/-- `data.chunks(size)` (Rust slice chunks): pieces of `size` elements, the
last one possibly shorter; no chunk for empty data. -/
def chunksOf (size : Nat) (data : List Nat) : List (List Nat) :=
  if _hc : data = [] ∨ size = 0 then []
  else data.take size :: chunksOf size (data.drop size)
termination_by data.length
decreasing_by
  simp only [not_or] at _hc
  have hlen : 0 < data.length := List.length_pos.mpr _hc.1
  simp only [List.length_drop]
  omega

/-- `FragmentEngine::fragment_data` (fragment.rs lines 54-86). -/
def fragment_data (h : List Nat → List Nat) (data : List Nat) :
    Except TopayzError (List Fragment) :=
  if data = [] then
    .error (.FragmentationError "Cannot fragment empty data")
  else
    let data_len := data.length
    let total_fragments := (data_len + FRAGMENT_SIZE - 1) / FRAGMENT_SIZE
    if total_fragments > MAX_FRAGMENTS then
      .error (.FragmentationError "Data too large")
    else
      .ok ((chunksOf FRAGMENT_SIZE data).enum.map (fun p =>
        { index := p.1, total := total_fragments, data := p.2, hash := h p.2 }))

/-- The map-building loop of `reconstruct_data` (fragment.rs lines 107-116):
place each fragment at slot `fragment.index`, rejecting out-of-bounds
indices; a later fragment with the same index overwrites an earlier one. -/
def buildMap (total : Nat) (m : List (Option Fragment)) (fs : List Fragment) :
    Except TopayzError (List (Option Fragment)) :=
  match fs with
  | [] => .ok m
  | f :: rest =>
    if f.index ≥ total then
      .error (.FragmentationError "Fragment index out of bounds")
    else
      buildMap total (m.set f.index (some f)) rest

/-- The reconstruction loop of `reconstruct_data` (fragment.rs lines 119-140):
every slot must be filled, carry the expected total, and verify; data is
appended in slot order. -/
def collectSlots (h : List Nat → List Nat) (total : Nat)
    (slots : List (Option Fragment)) : Except TopayzError (List Nat) :=
  match slots with
  | [] => .ok []
  | none :: _ => .error (.FragmentationError "Missing fragment")
  | some f :: rest =>
    if f.total ≠ total then
      .error (.FragmentationError "Fragment total mismatch")
    else if ¬ f.verify_fast h then
      .error (.FragmentationError "Fragment integrity verification failed")
    else do
      let ds ← collectSlots h total rest
      .ok (f.data ++ ds)

/-- `FragmentEngine::reconstruct_data` (fragment.rs lines 89-143). -/
def reconstruct_data (h : List Nat → List Nat) (fragments : List Fragment) :
    Except TopayzError (List Nat) :=
  match fragments with
  | [] => .error (.FragmentationError "No fragments provided")
  | f0 :: _ =>
    let total_fragments := f0.total
    if fragments.length ≠ total_fragments then
      .error (.FragmentationError "Fragment count mismatch")
    else do
      let fmap ← buildMap total_fragments (List.replicate total_fragments none)
        fragments
      collectSlots h total_fragments fmap

/-- `FragmentEngine::fragment_kem_encapsulation` (fragment.rs lines 146-162):
fragment the 64 public-key bytes; the combined hash is the lone fragment's
hash, or `Hash::concat` of the per-fragment hashes. -/
def fragment_kem_encapsulation (h : List Nat → List Nat)
    (hconcat : List (List Nat) → List Nat) (public_key_bytes : List Nat) :
    Except TopayzError FragmentedResult := do
  let fragments ← fragment_data h public_key_bytes
  let combined :=
    if fragments.length = 1 then (fragments.getD 0 default).hash
    else hconcat (fragments.map Fragment.hash)
  .ok { fragments := fragments, combined_hash := combined }

/-- `FragmentEngine::fragment_hash_operation` (fragment.rs lines 190-205):
identical combined-hash computation over arbitrary data. -/
def fragment_hash_operation (h : List Nat → List Nat)
    (hconcat : List (List Nat) → List Nat) (data : List Nat) :
    Except TopayzError FragmentedResult := do
  let fragments ← fragment_data h data
  let combined :=
    if fragments.length = 1 then (fragments.getD 0 default).hash
    else hconcat (fragments.map Fragment.hash)
  .ok { fragments := fragments, combined_hash := combined }

/-- `FragmentEngine::parallel_hash_compute` (fragment.rs lines 208-223):
`Hash::new` of the concatenated per-fragment hash digests. -/
def parallel_hash_compute (h : List Nat → List Nat)
    (fr : FragmentedResult) : List Nat :=
  if fr.fragments = [] then h []
  else h (fr.fragments.map Fragment.hash).flatten

/-! # Lemmas -/

/-! ## Sums and folds -/

theorem sum_map_range (f : Nat → Nat) (n : Nat) :
    ((List.range n).map f).sum = ∑ i ∈ Finset.range n, f i := by
  induction n with
  | zero => simp
  | succ n ih => rw [List.range_succ, Finset.sum_range_succ, ← ih]; simp

theorem foldl_mod_add (g : Nat → Nat) :
    ∀ (l : List Nat) (acc : Nat), acc < Q →
      l.foldl (fun a i => mod_add a (g i)) acc = (acc + (l.map g).sum) % Q := by
  intro l
  induction l with
  | nil =>
    intro acc hacc
    simp [Nat.mod_eq_of_lt hacc]
  | cons x l ih =>
    intro acc hacc
    have h1 : mod_add acc (g x) < Q := Nat.mod_lt _ (by decide)
    rw [List.foldl_cons, ih _ h1, mod_add, List.map_cons, List.sum_cons,
      Nat.mod_add_mod, Nat.add_assoc]

theorem modDot_eq (n : Nat) (x y : Nat → Nat) :
    modDot n x y = (∑ i ∈ Finset.range n, x i * y i) % Q := by
  rw [modDot, foldl_mod_add _ _ 0 (by decide), Nat.zero_add, sum_map_range]
  exact (Finset.sum_nat_mod _ _ _).symm

theorem modDot_lt (n : Nat) (x y : Nat → Nat) : modDot n x y < Q := by
  rw [modDot_eq]; exact Nat.mod_lt _ (by decide)

/-! ## Indexing helpers -/

theorem getD_map_range {f : Nat → Nat} {n i : Nat} (h : i < n) :
    ((List.range n).map f).getD i 0 = f i := by
  rw [List.getD_eq_getElem?_getD, List.getElem?_map, List.getElem?_range h]
  rfl

theorem map_range_getD' {α : Type} (l : List α) (d : α) (n : Nat) (h : l.length = n) :
    (List.range n).map (fun i => l.getD i d) = l := by
  apply List.ext_getElem
  · simp [h]
  · intro i h1 h2
    simp only [List.getElem_map, List.getElem_range]
    rw [List.getD_eq_getElem l d h2]

theorem map_range_getD (l : List Nat) (n : Nat) (h : l.length = n) :
    (List.range n).map (fun i => l.getD i 0) = l := by
  apply List.ext_getElem
  · simp [h]
  · intro i h1 h2
    simp only [List.getElem_map, List.getElem_range]
    rw [List.getD_eq_getElem l 0 h2]

theorem getD_replicate' {α : Type} {n i : Nat} {x d : α} (h : i < n) :
    (List.replicate n x).getD i d = x := by
  rw [List.getD_eq_getElem _ d (by simpa using h)]
  simp

/-! ## Codec lemmas -/

theorem length_encRow (row : List Nat) :
    ((row.map enc2).flatten).length = 2 * row.length := by
  induction row with
  | nil => rfl
  | cons x row ih =>
    rw [List.map_cons, List.flatten_cons, List.length_append, ih]
    show 2 + 2 * row.length = 2 * (row.length + 1)
    omega

theorem encode_matrix_cons (row : List Nat) (M : List (List Nat)) :
    encode_matrix (row :: M) = (row.map enc2).flatten ++ encode_matrix M := by
  simp [encode_matrix]

theorem encode_matrix_length (M : List (List Nat)) (cols : Nat)
    (h2 : ∀ row ∈ M, row.length = cols) :
    (encode_matrix M).length = M.length * cols * 2 := by
  induction M with
  | nil => simp [encode_matrix]
  | cons row M ih =>
    rw [encode_matrix_cons, List.length_append, length_encRow,
      h2 row (List.mem_cons_self _ _), ih (fun r hr => h2 r (List.mem_cons_of_mem _ hr)),
      List.length_cons]
    ring

theorem encRow_getD (row : List Nat) :
    ∀ j, j < row.length →
      ((row.map enc2).flatten).getD (2 * j) 0 = row.getD j 0 % 65536 % 256 ∧
      ((row.map enc2).flatten).getD (2 * j + 1) 0 = row.getD j 0 % 65536 / 256 := by
  induction row with
  | nil => intro j hj; simp at hj
  | cons x row ih =>
    intro j hj
    match j with
    | 0 => simp [enc2, List.getD_cons_zero, List.getD_cons_succ]
    | j + 1 =>
      have hj' : j < row.length := by simpa using hj
      have e1 : 2 * (j + 1) = ((enc2 x).length + 2 * j) := by simp [enc2]; ring
      have e2 : 2 * (j + 1) + 1 = ((enc2 x).length + (2 * j + 1)) := by simp [enc2]; ring
      constructor
      · rw [List.map_cons, List.flatten_cons, e1, List.getD_append_right _ _ _ _ (Nat.le_add_right _ _),
          Nat.add_sub_cancel_left, List.getD_cons_succ]
        exact (ih j hj').1
      · rw [List.map_cons, List.flatten_cons, e2, List.getD_append_right _ _ _ _ (Nat.le_add_right _ _),
          Nat.add_sub_cancel_left, List.getD_cons_succ]
        exact (ih j hj').2

theorem read16_encRow (row : List Nat) (j : Nat) (hj : j < row.length) :
    read16 ((row.map enc2).flatten) (2 * j) = row.getD j 0 % 65536 := by
  have h := encRow_getD row j hj
  rw [read16, h.1, h.2, Nat.mod_add_div]

theorem read16_encode_matrix (M : List (List Nat)) (cols : Nat)
    (h2 : ∀ row ∈ M, row.length = cols) :
    ∀ i j, i < M.length → j < cols →
      read16 (encode_matrix M) (2 * (i * cols + j)) = idx2 M i j % 65536 := by
  induction M with
  | nil => intro i j hi hj; simp at hi
  | cons row M ih =>
    intro i j hi hj
    match i with
    | 0 =>
      have hrow : row.length = cols := h2 row (List.mem_cons_self _ _)
      have hj' : j < row.length := hrow ▸ hj
      rw [encode_matrix_cons]
      have hlt : 2 * j + 1 < ((row.map enc2).flatten).length := by
        rw [length_encRow]; omega
      rw [show (0 * cols + j) = j by ring]
      rw [read16, List.getD_append _ _ _ _ (by omega), List.getD_append _ _ _ _ hlt,
        ← read16]
      rw [read16_encRow row j hj']
      rfl
    | i + 1 =>
      have hi' : i < M.length := by simpa using hi
      have hrow : row.length = cols := h2 row (List.mem_cons_self _ _)
      rw [encode_matrix_cons]
      have e1 : 2 * ((i + 1) * cols + j) =
          ((row.map enc2).flatten).length + 2 * (i * cols + j) := by
        rw [length_encRow, hrow]; ring
      rw [read16, e1, List.getD_append_right _ _ _ _ (Nat.le_add_right _ _),
        Nat.add_sub_cancel_left,
        show ((row.map enc2).flatten).length + 2 * (i * cols + j) + 1 =
          ((row.map enc2).flatten).length + (2 * (i * cols + j) + 1) by ring,
        List.getD_append_right _ _ _ _ (Nat.le_add_right _ _), Nat.add_sub_cancel_left,
        ← read16]
      rw [ih (fun r hr => h2 r (List.mem_cons_of_mem _ hr)) i j hi' hj]
      rfl

theorem decode_matrix_ok (bytes : List Nat) (rows cols : Nat)
    (h : ¬ bytes.length < rows * cols * 2) :
    decode_matrix bytes rows cols = .ok ((List.range rows).map (fun i =>
      (List.range cols).map (fun j => read16 bytes (2 * (i * cols + j))))) := by
  simp [decode_matrix, h]

theorem decode_encode (M : List (List Nat)) (rows cols : Nat)
    (h1 : M.length = rows) (h2 : ∀ row ∈ M, row.length = cols)
    (hlt : ∀ row ∈ M, ∀ x ∈ row, x < 65536) :
    decode_matrix (encode_matrix M) rows cols = .ok M := by
  rw [decode_matrix_ok _ _ _ (by rw [encode_matrix_length M cols h2, h1]; omega)]
  congr 1
  apply List.ext_getElem
  · simp [h1]
  · intro i hi hi'
    simp only [List.getElem_map, List.getElem_range]
    have hiM : i < M.length := by simpa using hi'
    apply List.ext_getElem
    · simp [h2 _ (M.getElem_mem hiM)]
    · intro j hj hj'
      simp only [List.getElem_map, List.getElem_range]
      have hjc : j < cols := by simpa using hj
      rw [read16_encode_matrix M cols h2 i j (h1 ▸ hi.trans_eq (by simp)) hjc]
      · have hmem : M[i] ∈ M := M.getElem_mem hiM
        have hx : M[i][j] ∈ M[i] := List.getElem_mem hj'
        have : idx2 M i j = M[i][j] := by
          rw [idx2, List.getD_eq_getElem _ _ hiM, List.getD_eq_getElem _ _ hj']
        rw [this, Nat.mod_eq_of_lt (hlt _ hmem _ hx)]

/-! ## Characterization of `encrypt` and `decrypt` on well-formed inputs -/

theorem except_bind_ok {ε α β : Type} (x : α) (f : α → Except ε β) :
    ((Except.ok x : Except ε α) >>= f) = f x := rfl

theorem encrypt_eq_ok (n : Nat) (a : List (List Nat)) (b msg seed r : List Nat)
    (ha1 : a.length = n) (ha2 : ∀ row ∈ a, row.length = n)
    (haLT : ∀ row ∈ a, ∀ x ∈ row, x < 65536)
    (hb1 : b.length = n) (hbLT : ∀ x ∈ b, x < 65536)
    (hseed : 32 ≤ seed.length) (hmsg : msg.length ≤ 1) :
    encrypt n (encode_matrix a ++ encode_matrix [b]) msg seed r =
      .ok (lweV n a r ++ [lweC n b r msg]) := by
  have hae : (encode_matrix a).length = n * n * 2 := by
    rw [encode_matrix_length a n ha2, ha1]
  have hbe : (encode_matrix [b]).length = n * 2 := by
    rw [encode_matrix_length [b] n (by simpa using hb1), List.length_singleton]
    ring
  have hpk : (encode_matrix a ++ encode_matrix [b]).length = n * n * 2 + n * 2 := by
    rw [List.length_append, hae, hbe]
  have hcoeff : ¬ (msg.length * 8 + (Nat.log2 Q - 1) - 1) / (Nat.log2 Q - 1) > 1 := by
    have h16 : Nat.log2 Q = 16 := by
      rw [Nat.log2_eq_log_two]
      exact Nat.log_eq_of_pow_le_of_lt_pow (by norm_num [Q]) (by norm_num [Q])
    have h15 : Nat.log2 Q - 1 = 15 := by omega
    rw [h15]
    interval_cases h : msg.length <;> decide
  rw [encrypt]
  rw [if_neg (by omega)]
  simp only []
  rw [List.take_left' hae, List.drop_left' hae, List.take_of_length_le (le_of_eq hbe)]
  rw [decode_encode a n n ha1 ha2 haLT, except_bind_ok,
    decode_encode [b] 1 n rfl (by simpa using hb1) (by simpa using hbLT),
    except_bind_ok]
  rw [create_seeded_rng, if_neg (by omega), except_bind_ok]
  simp only [List.getD_cons_zero]
  rw [if_neg hcoeff]
  rfl

theorem decrypt_eq_ok (n : Nat) (v s : List Nat) (c : Nat)
    (hv1 : v.length = n) (hvLT : ∀ x ∈ v, x < 65536) (hcLT : c < 65536)
    (hs1 : s.length = n) (hsLT : ∀ x ∈ s, x < 65536) :
    decrypt n (encode_matrix [v ++ [c]]) (encode_matrix [s]) =
      .ok (leBytes ((mod_sub c (modDot n (fun i => idx v i) (fun i => idx s i))
        + Q / 256 / 2) / (Q / 256))) := by
  have hctrow : (v ++ [c]).length = n + 1 := by simp [hv1]
  have hct : (encode_matrix [v ++ [c]]).length = (n + 1) * 2 := by
    rw [encode_matrix_length [v ++ [c]] (n + 1) (by simpa using hctrow),
      List.length_singleton]
    ring
  have hctLT : ∀ x ∈ v ++ [c], x < 65536 := by
    intro x hx
    rcases List.mem_append.mp hx with h | h
    · exact hvLT x h
    · simpa using (List.mem_singleton.mp h) ▸ hcLT
  have hske : (encode_matrix [s]).length = n * 2 := by
    rw [encode_matrix_length [s] n (by simpa using hs1), List.length_singleton]
    ring
  rw [decrypt]
  rw [if_neg (by omega)]
  simp only []
  rw [decode_encode [v ++ [c]] 1 (n + 1) rfl (by simpa using hctrow)
    (by simpa using hctLT), except_bind_ok]
  simp only [List.getD_cons_zero]
  rw [if_neg (by omega)]
  rw [decode_encode [s] 1 n rfl (by simpa using hs1) (by simpa using hsLT),
    except_bind_ok]
  simp only [List.getD_cons_zero]
  rw [List.take_left' hv1]
  have hidxc : idx (v ++ [c]) n = c := by
    rw [idx, List.getD_append_right _ _ _ _ (le_of_eq hv1), hv1, Nat.sub_self]
    rfl
  rw [hidxc]

/-! ## The LWE decryption algebra -/

instance : NeZero Q := ⟨by decide⟩

theorem keygenB_length (n : Nat) (a : List (List Nat)) (s e : List Nat) :
    (keygenB n a s e).length = n := by simp [keygenB]

theorem lweV_length (n : Nat) (a : List (List Nat)) (r : List Nat) :
    (lweV n a r).length = n := by simp [lweV]

theorem idx_keygenB (n : Nat) (a : List (List Nat)) (s e : List Nat) {i : Nat}
    (hi : i < n) :
    idx (keygenB n a s e) i =
      ((∑ j ∈ Finset.range n, idx2 a i j * idx s j) + idx e i) % Q := by
  rw [idx, keygenB, getD_map_range hi, mod_add, modDot_eq, Nat.mod_add_mod]

theorem idx_lweV (n : Nat) (a : List (List Nat)) (r : List Nat) {j : Nat}
    (hj : j < n) :
    idx (lweV n a r) j = (∑ i ∈ Finset.range n, idx r i * idx2 a i j) % Q := by
  rw [idx, lweV, getD_map_range hj, modDot_eq]

/-- The value recovered by `decrypt` before unscaling: `c - v·s` collapses to
the scaled message plus the accumulated error `r·e` (mod Q). -/
theorem lwe_m_value (n : Nat) (a : List (List Nat)) (s e r msg : List Nat) :
    mod_sub (lweC n (keygenB n a s e) r msg)
      (modDot n (fun i => idx (lweV n a r) i) (fun i => idx s i)) =
    (packLE msg * (Q / 256) + ∑ i ∈ Finset.range n, idx r i * idx e i) % Q := by
  set b := keygenB n a s e with hbdef
  set VS := modDot n (fun i => idx (lweV n a r) i) (fun i => idx s i) with hVSdef
  have hVS_lt : VS < Q := modDot_lt _ _ _
  have hC : lweC n b r msg =
      ((modDot n (fun i => idx r i) (fun i => idx b i))
        + packLE msg * (Q / 256) % Q) % Q := rfl
  rw [mod_sub, Nat.mod_eq_of_lt hVS_lt]
  rw [← ZMod.natCast_eq_natCast_iff' _ _ Q]
  have hle : VS ≤ lweC n b r msg + Q := by
    have : VS < Q := hVS_lt
    omega
  rw [Nat.cast_sub hle, Nat.cast_add, ZMod.natCast_self, add_zero]
  have hCc : ((lweC n b r msg : Nat) : ZMod Q) =
      (∑ i ∈ Finset.range n, (idx r i : ZMod Q) * ((idx b i : Nat) : ZMod Q))
        + (packLE msg : ZMod Q) * ((Q / 256 : Nat) : ZMod Q) := by
    rw [hC, ZMod.natCast_mod, Nat.cast_add, ZMod.natCast_mod, modDot_eq,
      ZMod.natCast_mod, Nat.cast_sum, Nat.cast_mul]
    congr 1
    exact Finset.sum_congr rfl (fun i _ => by rw [Nat.cast_mul])
  have hVSc : ((VS : Nat) : ZMod Q) =
      ∑ j ∈ Finset.range n,
        (∑ i ∈ Finset.range n, (idx r i : ZMod Q) * ((idx2 a i j : Nat) : ZMod Q))
          * ((idx s j : Nat) : ZMod Q) := by
    rw [hVSdef, modDot_eq, ZMod.natCast_mod, Nat.cast_sum]
    refine Finset.sum_congr rfl (fun j hj => ?_)
    rw [Nat.cast_mul, idx_lweV n a r (Finset.mem_range.mp hj), ZMod.natCast_mod,
      Nat.cast_sum]
    congr 1
    exact Finset.sum_congr rfl (fun i _ => by rw [Nat.cast_mul])
  have hbc : ∀ i ∈ Finset.range n, ((idx b i : Nat) : ZMod Q) =
      (∑ j ∈ Finset.range n, (idx2 a i j : ZMod Q) * (idx s j : ZMod Q))
        + (idx e i : ZMod Q) := by
    intro i hi
    rw [hbdef, idx_keygenB n a s e (Finset.mem_range.mp hi), ZMod.natCast_mod,
      Nat.cast_add, Nat.cast_sum]
    congr 1
    exact Finset.sum_congr rfl (fun j _ => by rw [Nat.cast_mul])
  rw [hCc, hVSc, Finset.sum_congr rfl (fun i hi => by rw [hbc i hi])]
  push_cast
  rw [Finset.sum_congr rfl
    (fun i (_ : i ∈ Finset.range n) => mul_add (idx r i : ZMod Q) _ _),
    Finset.sum_add_distrib]
  have hswap : ∑ j ∈ Finset.range n,
      (∑ i ∈ Finset.range n, (idx r i : ZMod Q) * (idx2 a i j : ZMod Q))
        * (idx s j : ZMod Q)
      = ∑ i ∈ Finset.range n, (idx r i : ZMod Q)
          * ∑ j ∈ Finset.range n, (idx2 a i j : ZMod Q) * (idx s j : ZMod Q) :=
    calc ∑ j ∈ Finset.range n,
        (∑ i ∈ Finset.range n, (idx r i : ZMod Q) * (idx2 a i j : ZMod Q))
          * (idx s j : ZMod Q)
        = ∑ j ∈ Finset.range n, ∑ i ∈ Finset.range n,
            (idx r i : ZMod Q) * (idx2 a i j : ZMod Q) * (idx s j : ZMod Q) :=
          Finset.sum_congr rfl (fun j _ => Finset.sum_mul _ _ _)
      _ = ∑ i ∈ Finset.range n, ∑ j ∈ Finset.range n,
            (idx r i : ZMod Q) * (idx2 a i j : ZMod Q) * (idx s j : ZMod Q) :=
          Finset.sum_comm
      _ = ∑ i ∈ Finset.range n, (idx r i : ZMod Q)
            * ∑ j ∈ Finset.range n, (idx2 a i j : ZMod Q) * (idx s j : ZMod Q) :=
          Finset.sum_congr rfl (fun i _ => by
            rw [Finset.mul_sum]
            exact Finset.sum_congr rfl (fun j _ => by ring))
  rw [← hswap]
  ring

/-- Unscaling: `round(m' / (Q/256))` recovers the message value whenever the
error residue is in `[0, 127]`, or in `[Q-128, Q)` with a nonzero message. -/
theorem unscale_round (mval S : Nat) (hm : mval < 256)
    (hE : S % Q ≤ 127 ∨ (Q - 128 ≤ S % Q ∧ 1 ≤ mval)) :
    ((mval * (Q / 256) + S) % Q + Q / 256 / 2) / (Q / 256) = mval := by
  simp only [Q] at hE ⊢
  have h1 : (mval * (65537 / 256) + S) % 65537 = (mval * 256 + S % 65537) % 65537 := by
    omega
  rcases hE with h | ⟨h, hm1⟩
  · have h2 : (mval * 256 + S % 65537) % 65537 = mval * 256 + S % 65537 := by omega
    rw [h1, h2]
    omega
  · have h2 : (mval * 256 + S % 65537) % 65537 = mval * 256 + S % 65537 - 65537 := by
      omega
    rw [h1, h2]
    omega

theorem leBytes_small {m0 : Nat} (hm : m0 < 256) : leBytes m0 = [m0] := by
  by_cases h0 : m0 = 0
  · rw [h0]; rfl
  · rw [leBytes, if_neg h0, leBytesCore, if_neg h0, Nat.mod_eq_of_lt hm,
      Nat.div_eq_of_lt hm, leBytesCore]
    rfl

theorem packLE_singleton (x : Nat) : packLE [x] = x := by
  simp [packLE, List.enum]

/-! ## Zero-vector instances (for the concrete `N = 1024` evaluations) -/

theorem getD_zero_replicate (k i : Nat) : (List.replicate k (0 : Nat)).getD i 0 = 0 := by
  rcases Nat.lt_or_ge i k with h | h
  · exact getD_replicate' h
  · rw [List.getD_eq_getElem?_getD, List.getElem?_eq_none (by simpa using h)]
    rfl

theorem idx2_zero_matrix (n i j : Nat) :
    idx2 (List.replicate n (List.replicate n (0 : Nat))) i j = 0 := by
  rcases Nat.lt_or_ge i n with h | h
  · rw [idx2, getD_replicate' h, getD_zero_replicate]
  · have h1 : (List.replicate n (List.replicate n (0 : Nat))).getD i [] = [] := by
      rw [List.getD_eq_getElem?_getD, List.getElem?_eq_none (by simpa using h)]
      rfl
    rw [idx2, h1]
    rfl

theorem modDot_zero_fn_left (n : Nat) (y : Nat → Nat) :
    modDot n (fun _ => 0) y = 0 := by
  rw [modDot_eq]
  simp

theorem modDot_zero_fn_right (n : Nat) (x : Nat → Nat) :
    modDot n x (fun _ => 0) = 0 := by
  rw [modDot_eq]
  simp

theorem keygenB_zero_matrix (n : Nat) (s e : List Nat)
    (he1 : e.length = n) (heLT : ∀ x ∈ e, x < Q) :
    keygenB n (List.replicate n (List.replicate n 0)) s e = e := by
  rw [keygenB]
  have : ∀ i ∈ List.range n,
      mod_add (modDot n (fun j => idx2 (List.replicate n (List.replicate n 0)) i j)
        (fun j => idx s j)) (idx e i) = e.getD i 0 := by
    intro i hi
    have hi' : i < n := List.mem_range.mp hi
    have hz : (fun j => idx2 (List.replicate n (List.replicate n 0)) i j)
        = fun _ => 0 := funext (fun j => idx2_zero_matrix n i j)
    rw [hz, modDot_zero_fn_left, mod_add, Nat.zero_add, idx,
      Nat.mod_eq_of_lt (heLT _ (by
        rw [List.getD_eq_getElem _ _ (he1 ▸ hi')]
        exact List.getElem_mem _))]
  rw [List.map_congr_left this]
  exact map_range_getD e n he1

theorem lweV_zero_matrix (n : Nat) (r : List Nat) :
    lweV n (List.replicate n (List.replicate n 0)) r = List.replicate n 0 := by
  rw [lweV]
  have : ∀ j ∈ List.range n,
      modDot n (fun i => idx r i)
        (fun i => idx2 (List.replicate n (List.replicate n 0)) i j) = 0 := by
    intro j _
    have hz : (fun i => idx2 (List.replicate n (List.replicate n 0)) i j)
        = fun _ => 0 := funext (fun i => idx2_zero_matrix n i j)
    rw [hz, modDot_zero_fn_right]
  rw [List.map_congr_left this, List.map_const', List.length_range]

theorem dot_cons_zeros (n x y : Nat) (hn : 0 < n) :
    ∑ i ∈ Finset.range n,
      idx (x :: List.replicate (n - 1) 0) i * idx (y :: List.replicate (n - 1) 0) i
      = x * y := by
  obtain ⟨m, rfl⟩ : ∃ m, n = m + 1 := ⟨n - 1, by omega⟩
  rw [Finset.sum_range_succ']
  have : ∀ i, idx (x :: List.replicate (m + 1 - 1) 0) (i + 1) *
      idx (y :: List.replicate (m + 1 - 1) 0) (i + 1) = 0 := by
    intro i
    rw [idx, idx, List.getD_cons_succ, List.getD_cons_succ, getD_zero_replicate]
  rw [Finset.sum_congr rfl (fun i _ => this i)]
  simp [idx]

theorem modDot_cons_zeros (n x y : Nat) (hn : 0 < n) :
    modDot n (fun i => idx (x :: List.replicate (n - 1) 0) i)
      (fun i => idx (y :: List.replicate (n - 1) 0) i) = x * y % Q := by
  rw [modDot_eq]
  rw [dot_cons_zeros n x y hn]

theorem leBytes_256 : leBytes 256 = [0, 1] := by
  have h0 : leBytesCore 0 = [] := by
    rw [leBytesCore]
    simp
  have h1 : leBytesCore 1 = [1] := by
    rw [leBytesCore, if_neg one_ne_zero]
    norm_num [h0]
  have h256 : leBytesCore 256 = [0, 1] := by
    rw [leBytesCore, if_neg (by norm_num)]
    norm_num [h1]
  rw [leBytes, if_neg (by norm_num), h256]

/-! ## Message-size check and decrypt output shape -/

theorem except_bind_error {ε α β : Type} (e : ε) (f : α → Except ε β) :
    ((Except.error e : Except ε α) >>= f) = .error e := rfl

theorem log2_Q : Nat.log2 Q = 16 := by
  rw [Nat.log2_eq_log_two]
  exact Nat.log_eq_of_pow_le_of_lt_pow (by norm_num [Q]) (by norm_num [Q])

theorem encrypt_reaches_msg_check (n : Nat) (pk msg seed r : List Nat)
    (hpk : n * n * 2 + n * 2 ≤ pk.length) (hseed : 32 ≤ seed.length) :
    encrypt n pk msg seed r =
      (if (msg.length * 8 + (Nat.log2 Q - 1) - 1) / (Nat.log2 Q - 1) > 1 then
        .error (.Encapsulation "Message is too large for single coefficient encryption")
      else
        .ok ((List.range n).map (fun j => modDot n (fun i => idx r i)
            (fun i => idx2 ((List.range n).map (fun i' =>
              (List.range n).map (fun j' =>
                read16 (pk.take (n * n * 2)) (2 * (i' * n + j'))))) i j)) ++
          [mod_add (modDot n (fun i => idx r i)
              (fun i => idx (((List.range 1).map (fun i' =>
                (List.range n).map (fun j' =>
                  read16 ((pk.drop (n * n * 2)).take (n * 2))
                    (2 * (i' * n + j'))))).getD 0 []) i))
            (packLE msg * (Q / 256) % Q)])) := by
  have hlen1 : ¬ (pk.take (n * n * 2)).length < n * n * 2 := by
    rw [List.length_take]
    omega
  have hlen2 : ¬ ((pk.drop (n * n * 2)).take (n * 2)).length < 1 * n * 2 := by
    rw [List.length_take, List.length_drop]
    omega
  rw [encrypt, if_neg (by omega)]
  simp only []
  rw [decode_matrix_ok _ _ _ hlen1, except_bind_ok,
    decode_matrix_ok _ _ _ hlen2, except_bind_ok,
    create_seeded_rng, if_neg (by omega), except_bind_ok]

theorem encrypt_accepts_small (n : Nat) (pk msg seed r : List Nat)
    (hpk : n * n * 2 + n * 2 ≤ pk.length) (hseed : 32 ≤ seed.length)
    (hmsg : msg.length ≤ 1) :
    ∃ ct, encrypt n pk msg seed r = .ok ct := by
  rw [encrypt_reaches_msg_check n pk msg seed r hpk hseed]
  rw [if_neg (by rw [log2_Q]; interval_cases h : msg.length <;> decide)]
  exact ⟨_, rfl⟩

theorem encrypt_rejects_large (n : Nat) (pk msg seed r : List Nat)
    (hpk : n * n * 2 + n * 2 ≤ pk.length) (hseed : 32 ≤ seed.length)
    (hmsg : 2 ≤ msg.length) :
    encrypt n pk msg seed r =
      .error (.Encapsulation "Message is too large for single coefficient encryption") := by
  rw [encrypt_reaches_msg_check n pk msg seed r hpk hseed]
  rw [if_pos (by rw [log2_Q]; omega)]

theorem leBytes_ne_nil (v : Nat) : leBytes v ≠ [] := by
  rw [leBytes]
  split
  · simp
  · rw [leBytesCore]
    split
    · simp_all
    · simp

theorem decrypt_ok_shape (n : Nat) (ctb skb msg : List Nat)
    (h : decrypt n ctb skb = .ok msg) : ∃ v, msg = leBytes v := by
  rw [decrypt] at h
  split at h
  · exact absurd h (by simp)
  · simp only [] at h
    rw [decode_matrix] at h
    split at h
    · rw [except_bind_error] at h
      exact absurd h (by simp)
    · rw [except_bind_ok] at h
      split at h
      · exact absurd h (by simp)
      · rw [decode_matrix] at h
        split at h
        · rw [except_bind_error] at h
          exact absurd h (by simp)
        · rw [except_bind_ok] at h
          injection h with h'
          exact ⟨_, h'.symm⟩

/-! ## Fragmentation: chunking -/

theorem chunksOf512_flatten (data : List Nat) :
    (chunksOf 512 data).flatten = data := by
  generalize hn : data.length = len
  induction len using Nat.strong_induction_on generalizing data with
  | _ len ih =>
    rw [chunksOf]
    split
    · rename_i hcond
      rcases hcond with hnil | h512
      · rw [hnil]; rfl
      · exact absurd h512 (by norm_num)
    · rename_i hcond
      have hne : data ≠ [] := fun hn' => hcond (Or.inl hn')
      have hpos : 0 < data.length := List.length_pos.mpr hne
      rw [List.flatten_cons,
        ih (data.drop 512).length (by rw [List.length_drop]; omega) _ rfl,
        List.take_append_drop]

theorem chunksOf512_length (data : List Nat) :
    (chunksOf 512 data).length = (data.length + 511) / 512 := by
  generalize hn : data.length = len
  induction len using Nat.strong_induction_on generalizing data with
  | _ len ih =>
    rw [chunksOf]
    split
    · rename_i hcond
      rcases hcond with hnil | h512
      · rw [hnil] at hn
        simp at hn
        simp [← hn]
      · exact absurd h512 (by norm_num)
    · rename_i hcond
      have hne : data ≠ [] := fun hn' => hcond (Or.inl hn')
      have hpos : 0 < data.length := List.length_pos.mpr hne
      rw [List.length_cons,
        ih (data.drop 512).length (by rw [List.length_drop]; omega) _ rfl,
        List.length_drop, hn]
      omega

theorem chunksOf512_single (data : List Nat) (hne : data ≠ [])
    (hlen : data.length ≤ 512) : chunksOf 512 data = [data] := by
  rw [chunksOf]
  rw [dif_neg (by simp [hne])]
  rw [List.take_of_length_le hlen, List.drop_eq_nil_of_le hlen, chunksOf]
  simp

/-! ## Fragmentation: fragment_data and the combined hash -/

theorem fragment_data_eq (h : List Nat → List Nat) (data : List Nat)
    (hne : data ≠ []) (hmax : (data.length + 511) / 512 ≤ 128) :
    fragment_data h data =
      .ok ((chunksOf 512 data).enum.map (fun p =>
        { index := p.1, total := (data.length + FRAGMENT_SIZE - 1) / FRAGMENT_SIZE,
          data := p.2, hash := h p.2 })) := by
  rw [fragment_data, if_neg hne, if_neg (by simp only [FRAGMENT_SIZE, MAX_FRAGMENTS]; omega)]
  rfl

theorem fragment_kem_encapsulation_single (h : List Nat → List Nat)
    (hconcat : List (List Nat) → List Nat) (pk : List Nat) (hlen : pk.length = 64) :
    fragment_kem_encapsulation h hconcat pk =
      .ok { fragments := [{ index := 0, total := 1, data := pk, hash := h pk }],
            combined_hash := h pk } := by
  have hne : pk ≠ [] := by
    intro hnil
    rw [hnil] at hlen
    simp at hlen
  have hfd : fragment_data h pk =
      .ok [{ index := 0, total := 1, data := pk, hash := h pk }] := by
    rw [fragment_data_eq h pk hne (by omega)]
    rw [chunksOf512_single pk hne (by omega)]
    have htot : (pk.length + FRAGMENT_SIZE - 1) / FRAGMENT_SIZE = 1 := by
      rw [hlen]
      rfl
    rw [htot]
    rfl
  rw [fragment_kem_encapsulation, hfd, except_bind_ok]
  rfl

theorem parallel_hash_compute_eq (h : List Nat → List Nat)
    (fr : FragmentedResult) :
    parallel_hash_compute h fr = h (fr.fragments.map Fragment.hash).flatten := by
  rw [parallel_hash_compute]
  split
  · rename_i hnil
    rw [hnil]
    rfl
  · rfl

/-! ## Fragmentation: the slot map of `reconstruct_data` -/

theorem buildMap_isOk (total : Nat) :
    ∀ (fs : List Fragment) (m : List (Option Fragment)),
      (∃ m', buildMap total m fs = .ok m') ↔ ∀ f ∈ fs, f.index < total := by
  intro fs
  induction fs with
  | nil =>
    intro m
    simp [buildMap]
  | cons f fs ih =>
    intro m
    rw [buildMap]
    split
    · rename_i hge
      constructor
      · intro ⟨m', hm'⟩
        exact absurd hm' (by simp)
      · intro hall
        exact absurd (hall f (List.mem_cons_self f fs)) (by omega)
    · rename_i hge
      rw [ih]
      constructor
      · intro hall g hg
        rcases List.mem_cons.mp hg with rfl | hg'
        · omega
        · exact hall g hg'
      · intro hall g hg
        exact hall g (List.mem_cons_of_mem f hg)

theorem buildMap_length (total : Nat) :
    ∀ (fs : List Fragment) (m m' : List (Option Fragment)),
      buildMap total m fs = .ok m' → m'.length = m.length := by
  intro fs
  induction fs with
  | nil =>
    intro m m' h
    injection h with h
    rw [← h]
  | cons f fs ih =>
    intro m m' h
    rw [buildMap] at h
    split at h
    · exact absurd h (by simp)
    · have hrec := ih _ _ h
      rwa [List.length_set] at hrec

theorem buildMap_getD (total : Nat) :
    ∀ (fs : List Fragment) (m m' : List (Option Fragment)),
      m.length = total → buildMap total m fs = .ok m' →
      ∀ i, m'.getD i none =
        (fs.reverse.find? (fun f => f.index == i)).or (m.getD i none) := by
  intro fs
  induction fs with
  | nil =>
    intro m m' hm h i
    injection h with h
    rw [← h]
    simp
  | cons f fs ih =>
    intro m m' hm h i
    rw [buildMap] at h
    split at h
    · exact absurd h (by simp)
    · rename_i hge
      have hlt : f.index < total := by omega
      have hset : (m.set f.index (some f)).length = total := by
        rw [List.length_set, hm]
      rw [ih _ _ hset h i, List.reverse_cons, List.find?_append]
      have hfind : ([f].find? (fun g => g.index == i)) =
          if f.index = i then some f else none := by
        by_cases hfi : f.index = i
        · simp [hfi]
        · simp [hfi]
      have hgetD : (m.set f.index (some f)).getD i none =
          if f.index = i then some f else m.getD i none := by
        by_cases hfi : f.index = i
        · subst hfi
          rw [if_pos rfl, List.getD_eq_getElem?_getD,
            List.getElem?_set_self (by omega)]
          rfl
        · rw [if_neg hfi, List.getD_eq_getElem?_getD, List.getElem?_set_ne hfi,
            ← List.getD_eq_getElem?_getD]
      rw [hgetD, hfind]
      cases hfa : fs.reverse.find? (fun g => g.index == i) with
      | some g => simp
      | none =>
        by_cases hfi : f.index = i <;> simp [hfi]

/-! ## Fragmentation: the reconstruction loop -/

theorem collectSlots_eq_ok_of (h : List Nat → List Nat) (total : Nat) :
    ∀ slots : List (Option Fragment),
      (∀ o ∈ slots, ∃ f, o = some f ∧ f.total = total ∧ f.verify_fast h = true) →
      collectSlots h total slots =
        .ok ((slots.map (fun o => (o.map Fragment.data).getD [])).flatten) := by
  intro slots
  induction slots with
  | nil => intro _; rfl
  | cons o slots ih =>
    intro hall
    obtain ⟨f, rfl, hft, hfv⟩ := hall o (List.mem_cons_self _ _)
    rw [collectSlots]
    rw [if_neg (by omega : ¬ f.total ≠ total)]
    rw [if_neg (by rw [hfv]; simp)]
    rw [ih (fun o' ho' => hall o' (List.mem_cons_of_mem _ ho')), except_bind_ok]
    rfl

theorem collectSlots_ok_imp (h : List Nat → List Nat) (total : Nat) :
    ∀ (slots : List (Option Fragment)) (ds : List Nat),
      collectSlots h total slots = .ok ds →
      (∀ o ∈ slots, ∃ f, o = some f ∧ f.total = total ∧ f.verify_fast h = true) ∧
      ds = (slots.map (fun o => (o.map Fragment.data).getD [])).flatten := by
  intro slots
  induction slots with
  | nil =>
    intro ds hds
    injection hds with hds
    constructor
    · intro o ho
      exact absurd ho (by simp)
    · rw [← hds]
      rfl
  | cons o slots ih =>
    intro ds hds
    match o with
    | none => exact absurd hds (by rw [collectSlots]; simp)
    | some f =>
      rw [collectSlots] at hds
      split at hds
      · exact absurd hds (by simp)
      · split at hds
        · exact absurd hds (by simp)
        · rename_i hft hfv
          cases hrec : collectSlots h total slots with
          | error e =>
            rw [hrec, except_bind_error] at hds
            exact absurd hds (by simp)
          | ok ds' =>
            rw [hrec, except_bind_ok] at hds
            injection hds with hds
            obtain ⟨hall, hds'⟩ := ih ds' hrec
            constructor
            · intro o' ho'
              rcases List.mem_cons.mp ho' with rfl | ho''
              · exact ⟨f, rfl, by omega, by simpa using hfv⟩
              · exact hall o' ho''
            · rw [← hds, hds']
              rfl

/-! ## Fragmentation: uniqueness and permutation tools -/

theorem find?_eq_some_of_unique {α : Type} {p : α → Bool} :
    ∀ {l : List α} {a : α}, a ∈ l → p a = true →
      (∀ b ∈ l, p b = true → b = a) → l.find? p = some a := by
  intro l
  induction l with
  | nil => intro a ha _ _; exact absurd ha (by simp)
  | cons x l ih =>
    intro a ha hpa huniq
    by_cases hpx : p x = true
    · rw [List.find?_cons_of_pos l hpx]
      rw [huniq x (List.mem_cons_self _ _) hpx]
    · rw [List.find?_cons_of_neg l (by simp [hpx])]
      rcases List.mem_cons.mp ha with rfl | ha'
      · exact absurd hpa hpx
      · exact ih ha' hpa (fun b hb hpb => huniq b (List.mem_cons_of_mem _ hb) hpb)

theorem indices_perm_of_surj (fs : List Fragment) (total : Nat)
    (hlen : fs.length = total)
    (hsurj : ∀ i < total, i ∈ fs.map Fragment.index) :
    (fs.map Fragment.index).Perm (List.range total) := by
  have hsub : List.range total ⊆ fs.map Fragment.index := by
    intro i hi
    exact hsurj i (List.mem_range.mp hi)
  have hsp : (List.range total).Subperm (fs.map Fragment.index) :=
    (List.nodup_range total).subperm hsub
  exact (hsp.perm_of_length_le (by simp [hlen])).symm

/-! ## Fragmentation: full characterization of `reconstruct_data` -/

theorem slots_eq (f0 : Fragment) (rest : List Fragment)
    (m' : List (Option Fragment))
    (hbm : buildMap f0.total (List.replicate f0.total none) (f0 :: rest) = .ok m') :
    m' = (List.range f0.total).map
      (fun i => (f0 :: rest).reverse.find? (fun f => f.index == i)) := by
  have hmlen : m'.length = f0.total := by
    rw [buildMap_length _ _ _ _ hbm, List.length_replicate]
  apply List.ext_getElem
  · simp [hmlen]
  · intro i h1 h2
    have hi : i < f0.total := by simpa [hmlen] using h1
    rw [← List.getD_eq_getElem m' none h1]
    rw [buildMap_getD f0.total (f0 :: rest) _ m' (by simp) hbm i]
    have hrep : (List.replicate f0.total (none : Option Fragment)).getD i none
        = none := getD_replicate' hi
    rw [hrep, Option.or_none]
    simp only [List.getElem_map, List.getElem_range]

theorem reconstruct_ok_imp (h : List Nat → List Nat) (fs : List Fragment)
    (ds : List Nat) (hok : reconstruct_data h fs = .ok ds) :
    fs ≠ [] ∧ (∀ f ∈ fs, f.total = fs.length) ∧
    (fs.map Fragment.index).Perm (List.range fs.length) ∧
    (∀ f ∈ fs, h f.data = f.hash) ∧
    ds = ((List.range fs.length).map (fun i =>
      ((fs.find? (fun f => f.index == i)).map Fragment.data).getD [])).flatten := by
  rcases fs with _ | ⟨f0, rest⟩
  · exact absurd hok (by rw [reconstruct_data]; simp)
  · rw [reconstruct_data] at hok
    split at hok
    · exact absurd hok (by simp)
    · rename_i hlen'
      have hlen : (f0 :: rest).length = f0.total := by omega
      cases hbm : buildMap f0.total (List.replicate f0.total none) (f0 :: rest) with
      | error e =>
        rw [hbm, except_bind_error] at hok
        exact absurd hok (by simp)
      | ok m' =>
        rw [hbm, except_bind_ok] at hok
        obtain ⟨hall, hds⟩ := collectSlots_ok_imp h f0.total m' ds hok
        have hidxlt : ∀ f ∈ (f0 :: rest), f.index < f0.total :=
          (buildMap_isOk f0.total (f0 :: rest) _).mp ⟨m', hbm⟩
        have hmeq := slots_eq f0 rest m' hbm
        have hslot : ∀ i < f0.total,
            ∃ g, (f0 :: rest).reverse.find? (fun f => f.index == i) = some g ∧
              g.total = f0.total ∧ g.verify_fast h = true := by
          intro i hi
          have hmem : (f0 :: rest).reverse.find? (fun f => f.index == i) ∈ m' := by
            rw [hmeq]
            exact List.mem_map.mpr ⟨i, by simpa using hi, rfl⟩
          obtain ⟨g, hgeq, hgt, hgv⟩ := hall _ hmem
          exact ⟨g, hgeq, hgt, hgv⟩
        have hsurj : ∀ i < f0.total, ∃ g ∈ (f0 :: rest), g.index = i := by
          intro i hi
          obtain ⟨g, hgeq, _, _⟩ := hslot i hi
          exact ⟨g, List.mem_reverse.mp (List.mem_of_find?_eq_some hgeq),
            by simpa using List.find?_some hgeq⟩
        have hperm : ((f0 :: rest).map Fragment.index).Perm
            (List.range (f0 :: rest).length) := by
          rw [hlen]
          exact indices_perm_of_surj _ _ hlen (fun i hi => by
            obtain ⟨g, hg, hgi⟩ := hsurj i hi
            exact List.mem_map.mpr ⟨g, hg, hgi⟩)
        have hnodup : ((f0 :: rest).map Fragment.index).Nodup :=
          hperm.nodup_iff.mpr (List.nodup_range _)
        have huniq := List.inj_on_of_nodup_map hnodup
        have hself : ∀ f ∈ (f0 :: rest),
            (f0 :: rest).reverse.find? (fun g => g.index == f.index) = some f := by
          intro f hf
          apply find?_eq_some_of_unique (List.mem_reverse.mpr hf) (by simp)
          intro b hb hpb
          exact huniq (List.mem_reverse.mp hb) hf (by simpa using hpb)
        have hprops : ∀ f ∈ (f0 :: rest), f.total = f0.total ∧ h f.data = f.hash := by
          intro f hf
          have hfi : f.index < f0.total := hidxlt f hf
          obtain ⟨g, hgeq, hgt, hgv⟩ := hslot f.index hfi
          rw [hself f hf] at hgeq
          injection hgeq with hgeq
          rw [← hgeq] at hgt hgv
          refine ⟨hgt, ?_⟩
          have := hgv
          rw [Fragment.verify_fast] at this
          simpa using this
        have hfind_eq : ∀ i < f0.total,
            (f0 :: rest).reverse.find? (fun f => f.index == i) =
              (f0 :: rest).find? (fun f => f.index == i) := by
          intro i hi
          obtain ⟨g, hg, hgi⟩ := hsurj i hi
          rw [show (f0 :: rest).reverse.find? (fun f => f.index == i) = some g from
            find?_eq_some_of_unique (List.mem_reverse.mpr hg) (by simp [hgi])
              (fun b hb hpb => huniq (List.mem_reverse.mp hb) hg
                (by rw [hgi]; simpa using hpb))]
          rw [show (f0 :: rest).find? (fun f => f.index == i) = some g from
            find?_eq_some_of_unique hg (by simp [hgi])
              (fun b hb hpb => huniq hb hg (by rw [hgi]; simpa using hpb))]
        refine ⟨by simp, fun f hf => (hprops f hf).1.trans hlen.symm, hperm,
          fun f hf => (hprops f hf).2, ?_⟩
        rw [hds, hmeq, List.map_map, ← hlen]
        congr 1
        apply List.map_congr_left
        intro i hi
        have hi' : i < f0.total := by
          rw [← hlen]
          simpa using hi
        simp only [Function.comp]
        rw [hfind_eq i hi']

theorem reconstruct_eq_ok_of (h : List Nat → List Nat) (fs : List Fragment)
    (hne : fs ≠ []) (htot : ∀ f ∈ fs, f.total = fs.length)
    (hperm : (fs.map Fragment.index).Perm (List.range fs.length))
    (hhash : ∀ f ∈ fs, h f.data = f.hash) :
    reconstruct_data h fs =
      .ok (((List.range fs.length).map (fun i =>
        ((fs.find? (fun f => f.index == i)).map Fragment.data).getD [])).flatten) := by
  rcases fs with _ | ⟨f0, rest⟩
  · exact absurd rfl hne
  · have hT : f0.total = (f0 :: rest).length :=
      htot f0 (List.mem_cons_self _ _)
    rw [reconstruct_data]
    rw [if_neg (by omega)]
    have hidxlt : ∀ f ∈ (f0 :: rest), f.index < f0.total := by
      intro f hf
      have hmem : f.index ∈ (f0 :: rest).map Fragment.index :=
        List.mem_map.mpr ⟨f, hf, rfl⟩
      have := hperm.mem_iff.mp hmem
      rw [List.mem_range] at this
      omega
    obtain ⟨m', hbm⟩ := (buildMap_isOk f0.total (f0 :: rest) _).mpr hidxlt
    rw [hbm, except_bind_ok]
    have hmeq := slots_eq f0 rest m' hbm
    have hnodup : ((f0 :: rest).map Fragment.index).Nodup :=
      hperm.nodup_iff.mpr (List.nodup_range _)
    have huniq := List.inj_on_of_nodup_map hnodup
    have hsurj : ∀ i < f0.total, ∃ g ∈ (f0 :: rest), g.index = i := by
      intro i hi
      have hmem : i ∈ (f0 :: rest).map Fragment.index := by
        apply hperm.mem_iff.mpr
        rw [List.mem_range]
        omega
      obtain ⟨g, hg, hgi⟩ := List.mem_map.mp hmem
      exact ⟨g, hg, hgi⟩
    have hfind : ∀ i < f0.total,
        ∃ g ∈ (f0 :: rest),
          (f0 :: rest).reverse.find? (fun f => f.index == i) = some g ∧
          (f0 :: rest).find? (fun f => f.index == i) = some g ∧ g.index = i := by
      intro i hi
      obtain ⟨g, hg, hgi⟩ := hsurj i hi
      refine ⟨g, hg, ?_, ?_, hgi⟩
      · exact find?_eq_some_of_unique (List.mem_reverse.mpr hg) (by simp [hgi])
          (fun b hb hpb => huniq (List.mem_reverse.mp hb) hg
            (by rw [hgi]; simpa using hpb))
      · exact find?_eq_some_of_unique hg (by simp [hgi])
          (fun b hb hpb => huniq hb hg (by rw [hgi]; simpa using hpb))
    have hall : ∀ o ∈ m', ∃ f, o = some f ∧ f.total = f0.total ∧
        f.verify_fast h = true := by
      intro o ho
      rw [hmeq] at ho
      obtain ⟨i, hi, rfl⟩ := List.mem_map.mp ho
      rw [List.mem_range] at hi
      obtain ⟨g, hg, hrev, _, _⟩ := hfind i hi
      refine ⟨g, hrev, (htot g hg).trans hT.symm, ?_⟩
      rw [Fragment.verify_fast]
      simp [hhash g hg]
    rw [collectSlots_eq_ok_of h f0.total m' hall]
    congr 1
    rw [hmeq, List.map_map, ← hT]
    congr 1
    apply List.map_congr_left
    intro i hi
    have hi' : i < f0.total := by simpa using hi
    obtain ⟨g, _, hrev, hfwd, _⟩ := hfind i hi'
    simp only [Function.comp]
    rw [hrev, hfwd]

theorem except_bind_ok2 {ε α β : Type} (x : α) (f : α → Except ε β) :
    Except.bind (Except.ok x) f = f x := rfl

/-! ## Fragmentation: the in-order fragment list of `fragment_data` -/

theorem fragment_list_map_index (h : List Nat → List Nat) (cs : List (List Nat))
    (T : Nat) :
    (cs.enum.map (fun p =>
        ({ index := p.1, total := T, data := p.2, hash := h p.2 } : Fragment))).map
      Fragment.index = List.range cs.length := by
  rw [List.map_map]
  have : (Fragment.index ∘ fun p : Nat × List Nat =>
      ({ index := p.1, total := T, data := p.2, hash := h p.2 } : Fragment))
      = Prod.fst := rfl
  rw [this, List.enum_map_fst]

theorem fragment_list_getElem (h : List Nat → List Nat) (cs : List (List Nat))
    (T i : Nat) (hi : i < cs.length) :
    (cs.enum.map (fun p =>
        ({ index := p.1, total := T, data := p.2, hash := h p.2 } : Fragment))).getD i
      default
      = { index := i, total := T, data := cs.getD i [], hash := h (cs.getD i []) } := by
  have hlen : i < (cs.enum.map (fun p =>
      ({ index := p.1, total := T, data := p.2, hash := h p.2 } : Fragment))).length := by
    simpa using hi
  rw [List.getD_eq_getElem _ _ hlen, List.getElem_map, List.getElem_enum]
  rw [List.getD_eq_getElem _ _ hi]

theorem fragment_roundtrip_core (h : List Nat → List Nat) (data : List Nat)
    (hne : data ≠ []) :
    reconstruct_data h ((chunksOf 512 data).enum.map (fun p =>
      ({ index := p.1, total := (data.length + FRAGMENT_SIZE - 1) / FRAGMENT_SIZE,
         data := p.2, hash := h p.2 } : Fragment))) = .ok data := by
  set T := (data.length + FRAGMENT_SIZE - 1) / FRAGMENT_SIZE with hTdef
  set cs := chunksOf 512 data with hcs
  set fs₀ := cs.enum.map (fun p =>
    ({ index := p.1, total := T, data := p.2, hash := h p.2 } : Fragment)) with hfs
  have hpos : 0 < data.length := List.length_pos.mpr hne
  have hcslen : cs.length = T := by
    rw [hcs, chunksOf512_length data, hTdef]
    rfl
  have hlen0 : fs₀.length = cs.length := by
    rw [hfs, List.length_map, List.enum_length]
  have hmapidx : fs₀.map Fragment.index = List.range cs.length :=
    fragment_list_map_index h cs T
  have hne0 : fs₀ ≠ [] := by
    intro hnil
    have : fs₀.length = 0 := by rw [hnil]; rfl
    rw [hlen0, hcslen] at this
    have : 0 < T := by rw [← hcslen, hcs, chunksOf512_length data]; omega
    omega
  have htot : ∀ f ∈ fs₀, f.total = fs₀.length := by
    intro f hf
    rw [hfs] at hf
    obtain ⟨p, _, rfl⟩ := List.mem_map.mp hf
    rw [hlen0, hcslen]
  have hperm : (fs₀.map Fragment.index).Perm (List.range fs₀.length) := by
    rw [hmapidx, hlen0]
  have hhash : ∀ f ∈ fs₀, h f.data = f.hash := by
    intro f hf
    rw [hfs] at hf
    obtain ⟨p, _, rfl⟩ := List.mem_map.mp hf
    rfl
  have hnodup : (fs₀.map Fragment.index).Nodup := by
    rw [hmapidx]
    exact List.nodup_range _
  have huniq := List.inj_on_of_nodup_map hnodup
  rw [reconstruct_eq_ok_of h fs₀ hne0 htot hperm hhash]
  congr 1
  have hfind : ∀ i < cs.length, fs₀.find? (fun f => f.index == i) =
      some { index := i, total := T, data := cs.getD i [], hash := h (cs.getD i []) } := by
    intro i hi
    have hgi := fragment_list_getElem h cs T i hi
    have hmem : (⟨i, T, cs.getD i [], h (cs.getD i [])⟩ : Fragment) ∈ fs₀ := by
      have hlt : i < fs₀.length := by rw [hlen0]; exact hi
      rw [← hgi]
      show fs₀.getD i default ∈ fs₀
      rw [List.getD_eq_getElem _ _ hlt]
      exact List.getElem_mem _
    apply find?_eq_some_of_unique hmem (by simp)
    intro b hb hpb
    exact huniq hb hmem (by simpa using hpb)
  calc ((List.range fs₀.length).map (fun i =>
        ((fs₀.find? (fun f => f.index == i)).map Fragment.data).getD [])).flatten
      = ((List.range cs.length).map (fun i => cs.getD i [])).flatten := by
        rw [hlen0]
        congr 1
        apply List.map_congr_left
        intro i hi
        rw [hfind i (by simpa using hi)]
        rfl
    _ = cs.flatten := by rw [map_range_getD' cs [] cs.length rfl]
    _ = data := by rw [hcs, chunksOf512_flatten]

/-! ## Fragmentation: every reconstruction failure is a `FragmentationError` -/

theorem buildMap_error_shape (total : Nat) :
    ∀ (fs : List Fragment) (m : List (Option Fragment)) (e : TopayzError),
      buildMap total m fs = .error e →
      ∃ msg, e = TopayzError.FragmentationError msg := by
  intro fs
  induction fs with
  | nil =>
    intro m e he
    exact absurd he (by rw [buildMap]; simp)
  | cons f rest ih =>
    intro m e he
    rw [buildMap] at he
    split at he
    · injection he with he
      exact ⟨_, he.symm⟩
    · exact ih _ _ he

theorem collectSlots_error_shape (h : List Nat → List Nat) (total : Nat) :
    ∀ (slots : List (Option Fragment)) (e : TopayzError),
      collectSlots h total slots = .error e →
      ∃ msg, e = TopayzError.FragmentationError msg := by
  intro slots
  induction slots with
  | nil =>
    intro e he
    exact absurd he (by rw [collectSlots]; simp)
  | cons o slots ih =>
    intro e he
    match o with
    | none =>
      rw [collectSlots] at he
      injection he with he
      exact ⟨_, he.symm⟩
    | some f =>
      rw [collectSlots] at he
      split at he
      · injection he with he
        exact ⟨_, he.symm⟩
      · split at he
        · injection he with he
          exact ⟨_, he.symm⟩
        · cases hrec : collectSlots h total slots with
          | error e' =>
            rw [hrec, except_bind_error] at he
            injection he with he
            exact he ▸ ih e' hrec
          | ok ds' =>
            rw [hrec, except_bind_ok] at he
            exact absurd he (by simp)

theorem reconstruct_error_shape (h : List Nat → List Nat)
    (fs : List Fragment) (e : TopayzError)
    (he : reconstruct_data h fs = .error e) :
    ∃ msg, e = TopayzError.FragmentationError msg := by
  rcases fs with _ | ⟨f0, rest⟩
  · rw [reconstruct_data] at he
    injection he with he
    exact ⟨_, he.symm⟩
  · rw [reconstruct_data] at he
    split at he
    · injection he with he
      exact ⟨_, he.symm⟩
    · cases hbm : buildMap f0.total (List.replicate f0.total none) (f0 :: rest) with
      | error e' =>
        rw [hbm, except_bind_error] at he
        injection he with he
        exact he ▸ buildMap_error_shape f0.total (f0 :: rest) _ e' hbm
      | ok m' =>
        rw [hbm, except_bind_ok] at he
        exact collectSlots_error_shape h f0.total m' e he

/-! # Claims -/

/-- C1: for every key pair produced by `Kem::keygen` and every run of
`Kem::encapsulate` on the public key (ephemeral randomness an arbitrary
parameter), `Kem::decapsulate` on the secret key and the ciphertext returns
the encapsulated shared secret.  Holds for every choice of the external hash
functions because `decapsulate` re-derives the public key as `Hash::new(sk)`,
exactly how `keygen` built it. -/
theorem kem_encapsulate_decapsulate_roundtrip
    (hnew : List Nat → List Nat) (hcombine : List Nat → List Nat → List Nat)
    (secret_bytes ephemeral : List Nat) :
    Kem.decapsulate hnew hcombine (Kem.keygen hnew secret_bytes).2
        (Kem.encapsulate hcombine (Kem.keygen hnew secret_bytes).1 ephemeral).1 =
      (Kem.encapsulate hcombine (Kem.keygen hnew secret_bytes).1 ephemeral).2 := rfl

/-- C2 (counterexample): with the zero matrix `A`, zero secret `s`, error
vector `e = (-2 mod Q, 0, …)` and noise vector `r = (1, 0, …)` — all within
the sampler's range — the accumulated error `r·e ≡ -2 (mod Q)` has
`|−2| < Q/512`, yet decrypting the encryption of the one-byte message `[0]`
returns `[0, 1]`, not `[0]`: the negative error wraps `m'` to `Q − 2` and the
unscaling rounds it to 256. -/
theorem lwe_roundtrip_counterexample :
    (∑ i ∈ Finset.range N, idx (1 :: List.replicate (N - 1) 0) i *
        idx (65535 :: List.replicate (N - 1) 0) i) % Q = Q - 2 ∧
    2 * 512 < Q ∧
    encrypt N
        (encode_matrix (List.replicate N (List.replicate N 0)) ++
          encode_matrix [keygenB N (List.replicate N (List.replicate N 0))
            (List.replicate N 0) (65535 :: List.replicate (N - 1) 0)])
        [0] (List.replicate 32 0) (1 :: List.replicate (N - 1) 0)
      = .ok (List.replicate N 0 ++ [65535]) ∧
    decrypt N (encode_matrix [List.replicate N 0 ++ [65535]])
        (encode_matrix [List.replicate N 0])
      = .ok [0, 1] ∧
    ([0, 1] : List Nat) ≠ [0] := by
  have hN : 0 < N := Nat.lt_of_sub_eq_succ rfl
  have h0lt : (0 : Nat) < 65536 := Nat.lt_of_sub_eq_succ rfl
  have h655 : (65535 : Nat) < 65536 := Nat.lt_of_sub_eq_succ rfl
  have hsum : (∑ i ∈ Finset.range N, idx (1 :: List.replicate (N - 1) 0) i *
      idx (65535 :: List.replicate (N - 1) 0) i) = 65535 :=
    dot_cons_zeros N 1 65535 hN
  have he1 : (65535 :: List.replicate (N - 1) 0).length = N := by
    rw [List.length_cons, List.length_replicate]
    exact Nat.succ_pred_eq_of_pos hN
  have heLT : ∀ x ∈ (65535 :: List.replicate (N - 1) 0), x < Q := fun x hx =>
    Or.elim (List.mem_cons.mp hx)
      (fun h => h ▸ (Nat.lt_of_sub_eq_succ rfl : (65535 : Nat) < Q))
      (fun h => (List.eq_of_mem_replicate h) ▸
        (Nat.lt_of_sub_eq_succ rfl : (0 : Nat) < Q))
  have heLT' : ∀ x ∈ (65535 :: List.replicate (N - 1) 0), x < 65536 := fun x hx =>
    Or.elim (List.mem_cons.mp hx)
      (fun h => h ▸ h655)
      (fun h => (List.eq_of_mem_replicate h) ▸ h0lt)
  have hb : keygenB N (List.replicate N (List.replicate N 0)) (List.replicate N 0)
      (65535 :: List.replicate (N - 1) 0) = 65535 :: List.replicate (N - 1) 0 :=
    keygenB_zero_matrix N _ _ he1 heLT
  have henc : encrypt N
      (encode_matrix (List.replicate N (List.replicate N 0)) ++
        encode_matrix [65535 :: List.replicate (N - 1) 0])
      [0] (List.replicate 32 0) (1 :: List.replicate (N - 1) 0)
      = .ok (lweV N (List.replicate N (List.replicate N 0))
            (1 :: List.replicate (N - 1) 0) ++
          [lweC N (65535 :: List.replicate (N - 1) 0)
            (1 :: List.replicate (N - 1) 0) [0]]) :=
    encrypt_eq_ok N (List.replicate N (List.replicate N 0))
      (65535 :: List.replicate (N - 1) 0) [0] (List.replicate 32 0)
      (1 :: List.replicate (N - 1) 0)
      (List.length_replicate _ _)
      (fun row hr => (List.eq_of_mem_replicate hr) ▸ List.length_replicate _ _)
      (fun row hr x hx =>
        (List.eq_of_mem_replicate ((List.eq_of_mem_replicate hr) ▸ hx)) ▸ h0lt)
      he1 heLT'
      (Nat.le_of_eq (List.length_replicate _ _).symm)
      (Nat.le_refl 1)
  have hlweV : lweV N (List.replicate N (List.replicate N 0))
      (1 :: List.replicate (N - 1) 0) = List.replicate N 0 := lweV_zero_matrix N _
  have hlweC : lweC N (65535 :: List.replicate (N - 1) 0)
      (1 :: List.replicate (N - 1) 0) [0] = 65535 := by
    rw [lweC, modDot_cons_zeros N 1 65535 hN, packLE_singleton]
    decide
  have harg : encode_matrix (List.replicate N (List.replicate N 0)) ++
      encode_matrix [keygenB N (List.replicate N (List.replicate N 0))
        (List.replicate N 0) (65535 :: List.replicate (N - 1) 0)]
      = encode_matrix (List.replicate N (List.replicate N 0)) ++
        encode_matrix [65535 :: List.replicate (N - 1) 0] :=
    congrArg (fun z => encode_matrix (List.replicate N (List.replicate N 0)) ++
      encode_matrix [z]) hb
  have hctv : lweV N (List.replicate N (List.replicate N 0))
        (1 :: List.replicate (N - 1) 0) ++
      [lweC N (65535 :: List.replicate (N - 1) 0)
        (1 :: List.replicate (N - 1) 0) [0]]
      = List.replicate N 0 ++ [65535] := by
    rw [hlweV, hlweC]
  have hd := decrypt_eq_ok N (List.replicate N 0) (List.replicate N 0) 65535
    (List.length_replicate _ _)
    (fun x hx => (List.eq_of_mem_replicate hx) ▸ h0lt)
    h655
    (List.length_replicate _ _)
    (fun x hx => (List.eq_of_mem_replicate hx) ▸ h0lt)
  have hval : leBytes ((mod_sub 65535
      (modDot N (fun i => idx (List.replicate N 0) i)
        (fun i => idx (List.replicate N 0) i)) + Q / 256 / 2) / (Q / 256))
      = [0, 1] := by
    have hvs : modDot N (fun i => idx (List.replicate N 0) i)
        (fun i => idx (List.replicate N 0) i) = 0 := by
      have hz : (fun i => idx (List.replicate N 0) i) = fun _ => (0 : Nat) :=
        funext (fun i => getD_zero_replicate N i)
      rw [hz, modDot_zero_fn_left]
    rw [hvs]
    have hm : mod_sub 65535 0 = 65535 := by decide
    rw [hm]
    have hdiv : (65535 + Q / 256 / 2) / (Q / 256) = 256 := by decide
    rw [hdiv, leBytes_256]
  refine ⟨by rw [hsum]; decide, by decide, ?_, ?_, by decide⟩
  · exact (congrArg (fun z => encrypt N z [0] (List.replicate 32 0)
        (1 :: List.replicate (N - 1) 0)) harg).trans
      (henc.trans (congrArg Except.ok hctv))
  · exact hd.trans (congrArg Except.ok hval)

/-- C2 (amended): the LWE round trip recovers a one-byte message provided the
error residue `E = (Σ r·e) mod Q` lies in `[0, 127]`, or in `[Q-128, Q)` with
a nonzero message byte (the spec's `|e·r| < Q/512` also admits error 128 and
admits negative errors with message 0, both of which misround), and provided
no encoded coefficient equals 65536, which the 2-byte truncating codec would
corrupt. -/
theorem lwe_roundtrip_amended (n : Nat) (a : List (List Nat))
    (s e r seed : List Nat) (m0 : Nat)
    (ha1 : a.length = n) (ha2 : ∀ row ∈ a, row.length = n)
    (haLT : ∀ row ∈ a, ∀ x ∈ row, x < 65536)
    (hs1 : s.length = n) (hsLT : ∀ x ∈ s, x < 65536)
    (hm0 : m0 < 256) (hseed : 32 ≤ seed.length)
    (hbLT : ∀ x ∈ keygenB n a s e, x < 65536)
    (hvLT : ∀ x ∈ lweV n a r, x < 65536)
    (hcLT : lweC n (keygenB n a s e) r [m0] < 65536)
    (herr : (∑ i ∈ Finset.range n, idx r i * idx e i) % Q ≤ 127 ∨
      (Q - 128 ≤ (∑ i ∈ Finset.range n, idx r i * idx e i) % Q ∧ 1 ≤ m0)) :
    ∃ ct,
      encrypt n (encode_matrix a ++ encode_matrix [keygenB n a s e]) [m0] seed r
        = .ok ct ∧
      decrypt n (encode_matrix [ct]) (encode_matrix [s]) = .ok [m0] := by
  refine ⟨lweV n a r ++ [lweC n (keygenB n a s e) r [m0]], ?_, ?_⟩
  · exact encrypt_eq_ok n a (keygenB n a s e) [m0] seed r ha1 ha2 haLT
      (keygenB_length n a s e) hbLT hseed (by simp)
  · rw [decrypt_eq_ok n (lweV n a r) s (lweC n (keygenB n a s e) r [m0])
      (lweV_length n a r) hvLT hcLT hs1 hsLT]
    rw [lwe_m_value n a s e r [m0], packLE_singleton]
    rw [unscale_round m0 _ hm0 herr, leBytes_small hm0]

/-- C2 (witness for the amended theorem), at dimension 1 with tiny values. -/
theorem lwe_roundtrip_amended_witness :
    ∃ ct,
      encrypt 1 (encode_matrix [[1]] ++ encode_matrix [keygenB 1 [[1]] [1] [0]])
        [7] (List.replicate 32 0) [1] = .ok ct ∧
      decrypt 1 (encode_matrix [ct]) (encode_matrix [[1]]) = .ok [7] :=
  lwe_roundtrip_amended 1 [[1]] [1] [0] [1] (List.replicate 32 0) 7
    (by decide) (by decide) (by decide) (by decide) (by decide) (by decide)
    (by decide) (by decide) (by decide) (by decide) (by decide)

/-- C4 (counterexample): the entry 65536 is `< Q = 65537`, but `val as u16`
truncates it to 0 during encoding, so the codec round trip fails on the
1×1 matrix `[[65536]]`. -/
theorem codec_roundtrip_counterexample :
    (65536 : Nat) < Q ∧
    decode_matrix (encode_matrix [[65536]]) 1 1 = .ok [[0]] ∧
    decode_matrix (encode_matrix [[65536]]) 1 1 ≠ .ok [[65536]] := by
  have hok : decode_matrix (encode_matrix [[65536]]) 1 1 = .ok [[0]] := rfl
  refine ⟨by decide, hok, ?_⟩
  rw [hok]
  intro h
  simp at h

/-- C4 (amended): the codec round trip `decode_matrix (encode_matrix M)` holds
for matrices whose entries are `< 2^16 = 65536` (not `< Q`): the 2-byte
little-endian encoding truncates `val as u16`. -/
theorem codec_roundtrip_amended (M : List (List Nat)) (rows cols : Nat)
    (h1 : M.length = rows) (h2 : ∀ row ∈ M, row.length = cols)
    (hlt : ∀ row ∈ M, ∀ x ∈ row, x < 65536) :
    decode_matrix (encode_matrix M) rows cols = .ok M :=
  decode_encode M rows cols h1 h2 hlt

/-- C4 (witness for the amended theorem). -/
theorem codec_roundtrip_amended_witness :
    decode_matrix (encode_matrix [[1, 2], [3, 65535]]) 2 2 = .ok [[1, 2], [3, 65535]] :=
  codec_roundtrip_amended [[1, 2], [3, 65535]] 2 2 (by decide) (by decide) (by decide)

/-- C6: `keygen_with_seed` is a deterministic function of the first 32 seed
bytes: two seeds of length ≥ 32 agreeing on their first 32 bytes produce
identical results (the ChaCha20 state is built from `seed[0..32]` and all
sampling flows deterministically from it). -/
theorem keygen_deterministic (n : Nat)
    (sampler : List Nat → List (List Nat) × List Nat × List Nat)
    (s1 s2 : List Nat) (h32 : 32 ≤ s1.length) (htake : s1.take 32 = s2.take 32) :
    keygen_with_seed n sampler s1 = keygen_with_seed n sampler s2 := by
  have h32' : 32 ≤ s2.length := by
    have hlen := congrArg List.length htake
    simp only [List.length_take] at hlen
    omega
  rw [keygen_with_seed, keygen_with_seed, create_seeded_rng, create_seeded_rng,
    if_neg (by omega), if_neg (by omega), except_bind_ok, except_bind_ok, htake]

/-- C6 (witness): seeds agreeing on the first 32 bytes but differing beyond. -/
theorem keygen_deterministic_witness :
    keygen_with_seed 5 (fun st => ([st], st, st)) (List.replicate 32 0) =
      keygen_with_seed 5 (fun st => ([st], st, st)) (List.replicate 32 0 ++ [7]) :=
  keygen_deterministic 5 (fun st => ([st], st, st)) _ _ (by decide) (by decide)

/-- C9: the constant `PUBLIC_KEY_BYTES` in params.rs is
`N*N*2 + 32 = 2,097,184`, not the `N*N*2 + N*2 + 32 = 2,099,232` bytes the
`A‖b‖seed` layout requires: the `N*2` bytes of the vector `b` are missing.
The code contradicts itself: `encrypt` rejects a public key buffer of exactly
`PUBLIC_KEY_BYTES` bytes as "too short". -/
theorem public_key_bytes_mismatch :
    PUBLIC_KEY_BYTES = 2097184 ∧
    N * N * 2 + N * 2 + SEED_LENGTH = 2099232 ∧
    PUBLIC_KEY_BYTES ≠ N * N * 2 + N * 2 + SEED_LENGTH ∧
    PUBLIC_KEY_BYTES < N * N * 2 + N * 2 ∧
    encrypt N (List.replicate PUBLIC_KEY_BYTES 0) [0] (List.replicate 32 0)
        (List.replicate N 0) =
      .error (.InvalidKeyFormat "Public key bytes are too short") := by
  refine ⟨by decide, by decide, by decide, by decide, ?_⟩
  rw [encrypt, if_pos (by rw [List.length_replicate]; decide)]

/-- C5 (counterexample): the two-byte message `[1, 0]` packs little-endian to
the value 1, which fits a single coefficient, yet `encrypt` (at the
repository's `N = 1024`, with a valid-length public key and a 32-byte seed)
rejects it with the Encapsulation error: the check is on the byte length
(`len·8 > 15` bits), not on the packed value. -/
theorem encrypt_two_byte_counterexample :
    packLE [1, 0] = 1 ∧ 1 * (Q / 256) < Q ∧
    encrypt N (List.replicate (N * N * 2 + N * 2) 0) [1, 0] (List.replicate 32 0)
        (List.replicate N 0)
      = .error (.Encapsulation "Message is too large for single coefficient encryption") := by
  refine ⟨by decide, by decide, ?_⟩
  exact encrypt_rejects_large N _ [1, 0] _ _
    (by rw [List.length_replicate]) (by rw [List.length_replicate]) (by norm_num)

/-- C5 (amended): for a public key of valid length and a seed of at least 32
bytes, `encrypt` accepts exactly the messages of at most one byte
(`len·8 ≤ 15` bits); every message of two or more bytes fails with the
Encapsulation error regardless of its packed integer value. -/
theorem encrypt_message_size_amended (n : Nat) (pk msg seed r : List Nat)
    (hpk : n * n * 2 + n * 2 ≤ pk.length) (hseed : 32 ≤ seed.length) :
    ((∃ ct, encrypt n pk msg seed r = .ok ct) ↔ msg.length ≤ 1) ∧
    (2 ≤ msg.length → encrypt n pk msg seed r =
      .error (.Encapsulation "Message is too large for single coefficient encryption")) := by
  constructor
  · constructor
    · intro ⟨ct, hct⟩
      by_contra hlen
      rw [encrypt_rejects_large n pk msg seed r hpk hseed (by omega)] at hct
      exact absurd hct (by simp)
    · exact encrypt_accepts_small n pk msg seed r hpk hseed
  · exact encrypt_rejects_large n pk msg seed r hpk hseed

/-- C5 (witness for the amended theorem). -/
theorem encrypt_message_size_amended_witness :
    ((∃ ct, encrypt 1 (List.replicate 6 0) [5] (List.replicate 32 0) [0] = .ok ct)
      ↔ ([5] : List Nat).length ≤ 1) ∧
    (2 ≤ ([5] : List Nat).length →
      encrypt 1 (List.replicate 6 0) [5] (List.replicate 32 0) [0] =
        .error (.Encapsulation "Message is too large for single coefficient encryption")) :=
  encrypt_message_size_amended 1 (List.replicate 6 0) [5] (List.replicate 32 0) [0]
    (by decide) (by decide)

/-- C10: `decrypt` always emits at least one byte (value 0 becomes `[0]`),
while `encrypt` accepts the empty message; decrypting the encryption of the
empty message therefore never returns the empty message. -/
theorem lwe_empty_message_no_roundtrip (n : Nat) (a : List (List Nat))
    (s e r seed : List Nat)
    (ha1 : a.length = n) (ha2 : ∀ row ∈ a, row.length = n)
    (haLT : ∀ row ∈ a, ∀ x ∈ row, x < 65536)
    (hbLT : ∀ x ∈ keygenB n a s e, x < 65536)
    (hseed : 32 ≤ seed.length) :
    (∀ ctb skb msg, decrypt n ctb skb = .ok msg → msg ≠ []) ∧
    ∃ ct,
      encrypt n (encode_matrix a ++ encode_matrix [keygenB n a s e]) [] seed r
        = .ok ct ∧
      ∀ msg, decrypt n (encode_matrix [ct]) (encode_matrix [s]) = .ok msg →
        msg ≠ [] := by
  have hnever : ∀ ctb skb msg, decrypt n ctb skb = .ok msg → msg ≠ [] := by
    intro ctb skb msg h
    obtain ⟨v, rfl⟩ := decrypt_ok_shape n ctb skb msg h
    exact leBytes_ne_nil v
  refine ⟨hnever, lweV n a r ++ [lweC n (keygenB n a s e) r []], ?_, ?_⟩
  · exact encrypt_eq_ok n a (keygenB n a s e) [] seed r ha1 ha2 haLT
      (keygenB_length n a s e) hbLT hseed (by simp)
  · intro msg h
    exact hnever _ _ _ h

/-- C10 (witness), at dimension 1. -/
theorem lwe_empty_message_no_roundtrip_witness :
    (∀ ctb skb msg, decrypt 1 ctb skb = .ok msg → msg ≠ []) ∧
    ∃ ct,
      encrypt 1 (encode_matrix [[1]] ++ encode_matrix [keygenB 1 [[1]] [1] [0]])
        [] (List.replicate 32 0) [1] = .ok ct ∧
      ∀ msg, decrypt 1 (encode_matrix [ct]) (encode_matrix [[1]]) = .ok msg →
        msg ≠ [] :=
  lwe_empty_message_no_roundtrip 1 [[1]] [1] [0] [1] (List.replicate 32 0)
    (by decide) (by decide) (by decide) (by decide) (by decide)

/-- C3: for every non-empty byte buffer within the size bound
(`ceil(len/FRAGMENT_SIZE) ≤ MAX_FRAGMENTS`), reconstructing the fragments
produced by `fragment_data` returns the original buffer, for every choice of
the external hash function. -/
theorem fragment_reconstruct_roundtrip (h : List Nat → List Nat)
    (data : List Nat) (hne : data ≠ [])
    (hmax : (data.length + FRAGMENT_SIZE - 1) / FRAGMENT_SIZE ≤ MAX_FRAGMENTS) :
    Except.bind (fragment_data h data) (reconstruct_data h) = .ok data := by
  have hmax' : (data.length + 511) / 512 ≤ 128 := by
    simp only [FRAGMENT_SIZE, MAX_FRAGMENTS] at hmax
    omega
  rw [fragment_data_eq h data hne hmax', except_bind_ok2]
  exact fragment_roundtrip_core h data hne

/-- C3 (witness). -/
theorem fragment_reconstruct_roundtrip_witness :
    Except.bind (fragment_data (fun xs => [xs.length % 256]) [1, 2, 3])
      (reconstruct_data (fun xs => [xs.length % 256])) = .ok [1, 2, 3] :=
  fragment_reconstruct_roundtrip (fun xs => [xs.length % 256]) [1, 2, 3]
    (by decide) (by decide)

/-- C7: `reconstruct_data` succeeds exactly when the fragment list is
non-empty, every fragment's `total` equals the list length, the indices cover
`0..total` exactly once, and every fragment's stored hash matches the
recomputed digest of its data; on success it returns the fragments' data
concatenated in ascending index order, and the result is invariant under
permuting the input list; every violation (every failing input) yields a
`FragmentationError` — never any other `TopayzError` variant. -/
theorem reconstruct_characterization (h : List Nat → List Nat)
    (fs : List Fragment) (ds : List Nat) :
    (reconstruct_data h fs = .ok ds ↔
      (fs ≠ [] ∧ (∀ f ∈ fs, f.total = fs.length) ∧
       (fs.map Fragment.index).Perm (List.range fs.length) ∧
       (∀ f ∈ fs, h f.data = f.hash) ∧
       ds = ((List.range fs.length).map (fun i =>
         ((fs.find? (fun f => f.index == i)).map Fragment.data).getD [])).flatten)) ∧
    (∀ fs', fs.Perm fs' → reconstruct_data h fs = .ok ds →
      reconstruct_data h fs' = .ok ds) ∧
    (∀ e, reconstruct_data h fs = .error e →
      ∃ msg, e = TopayzError.FragmentationError msg) := by
  refine ⟨?_, ?_, fun e he => reconstruct_error_shape h fs e he⟩
  · constructor
    · exact reconstruct_ok_imp h fs ds
    · intro ⟨hne, htot, hperm, hhash, hds⟩
      rw [reconstruct_eq_ok_of h fs hne htot hperm hhash, hds]
  · intro fs' hp hok
    obtain ⟨hne, htot, hperm, hhash, hds⟩ := reconstruct_ok_imp h fs ds hok
    have hlen := hp.length_eq
    have hne' : fs' ≠ [] := by
      intro hnil
      rw [hnil] at hlen
      simp only [List.length_nil] at hlen
      exact hne (List.length_eq_zero.mp hlen)
    have htot' : ∀ f ∈ fs', f.total = fs'.length := by
      intro f hf
      rw [← hlen]
      exact htot f (hp.mem_iff.mpr hf)
    have hperm' : (fs'.map Fragment.index).Perm (List.range fs'.length) := by
      rw [← hlen]
      exact (hp.map Fragment.index).symm.trans hperm
    have hhash' : ∀ f ∈ fs', h f.data = f.hash := fun f hf =>
      hhash f (hp.mem_iff.mpr hf)
    rw [reconstruct_eq_ok_of h fs' hne' htot' hperm' hhash']
    congr 1
    rw [hds, ← hlen]
    congr 1
    apply List.map_congr_left
    intro i hi
    have hnodup : (fs.map Fragment.index).Nodup :=
      hperm.nodup_iff.mpr (List.nodup_range _)
    have hnodup' : (fs'.map Fragment.index).Nodup :=
      (hp.map Fragment.index).nodup_iff.mp hnodup
    have huniq := List.inj_on_of_nodup_map hnodup
    have huniq' := List.inj_on_of_nodup_map hnodup'
    obtain ⟨g, hg, hgi⟩ : ∃ g ∈ fs, g.index = i := by
      have hmem : i ∈ fs.map Fragment.index := hperm.mem_iff.mpr (by simpa using hi)
      obtain ⟨g, hg, hgi⟩ := List.mem_map.mp hmem
      exact ⟨g, hg, hgi⟩
    rw [find?_eq_some_of_unique hg (by simp [hgi])
        (fun b hb hpb => huniq hb hg (by rw [hgi]; simpa using hpb)),
      find?_eq_some_of_unique (hp.mem_iff.mp hg) (by simp [hgi])
        (fun b hb hpb => huniq' hb (hp.mem_iff.mp hg) (by rw [hgi]; simpa using hpb))]

/-- C7 (witness): a two-fragment list presented out of order reconstructs to
the data in ascending index order. -/
theorem reconstruct_characterization_witness :
    reconstruct_data (fun xs => xs) [⟨1, 2, [2, 3], [2, 3]⟩, ⟨0, 2, [1], [1]⟩]
      = .ok [1, 2, 3] :=
  (reconstruct_characterization (fun xs => xs)
      [⟨0, 2, [1], [1]⟩, ⟨1, 2, [2, 3], [2, 3]⟩] [1, 2, 3]).2.1
    [⟨1, 2, [2, 3], [2, 3]⟩, ⟨0, 2, [1], [1]⟩]
    (List.Perm.swap _ _ _)
    ((reconstruct_characterization (fun xs => xs)
        [⟨0, 2, [1], [1]⟩, ⟨1, 2, [2, 3], [2, 3]⟩] [1, 2, 3]).1.mpr
      (by
        refine ⟨by decide, by decide, ?_, by decide, by decide⟩
        exact List.Perm.refl _))

/-- C8 (counterexample): instantiating the external hash with a concrete
function, `fragment_kem_encapsulation` over a 64-byte public key yields one
fragment and no component shared secrets, and `parallel_hash_compute` hashes
the concatenated per-fragment DIGESTS — here `[1]` — while the hash of the
concatenated fragment payloads is `[64]`: the final value is a combination of
per-fragment hashes, not `hash(concat(secrets))`. -/
theorem fragment_kem_counterexample :
    (Except.map (parallel_hash_compute (fun xs => [xs.length % 256]))
      (fragment_kem_encapsulation (fun xs => [xs.length % 256])
        (fun hs => hs.flatten) (List.replicate 64 0)))
      = .ok [1] ∧
    (fun xs : List Nat => [xs.length % 256]) (List.replicate 64 0) = [64] ∧
    ([1] : List Nat) ≠ [64] := by
  refine ⟨?_, by simp, by decide⟩
  rw [fragment_kem_encapsulation_single (fun xs => [xs.length % 256])
    (fun hs => hs.flatten) (List.replicate 64 0) (by simp)]
  rw [show ∀ (fr : FragmentedResult),
      Except.map (parallel_hash_compute (fun xs => [xs.length % 256]))
        (.ok fr : Except TopayzError FragmentedResult)
        = .ok (parallel_hash_compute (fun xs => [xs.length % 256]) fr)
    from fun _ => rfl]
  rw [parallel_hash_compute_eq]
  simp

/-- C8 (amended): `fragment_kem_encapsulation` fragments the 64-byte KEM
public key — always one fragment, whose hash is the combined hash — and
produces no component shared secrets; `parallel_hash_compute` returns
`Hash::new` of the concatenation of the per-fragment hash digests (not of the
fragment payloads). -/
theorem fragment_kem_amended (h : List Nat → List Nat)
    (hconcat : List (List Nat) → List Nat) (pk : List Nat)
    (hlen : pk.length = 64) :
    fragment_kem_encapsulation h hconcat pk =
      .ok { fragments := [{ index := 0, total := 1, data := pk, hash := h pk }],
            combined_hash := h pk } ∧
    ∀ fr : FragmentedResult,
      parallel_hash_compute h fr = h (fr.fragments.map Fragment.hash).flatten :=
  ⟨fragment_kem_encapsulation_single h hconcat pk hlen,
   parallel_hash_compute_eq h⟩

/-- C8 (witness for the amended theorem). -/
theorem fragment_kem_amended_witness :
    fragment_kem_encapsulation (fun xs => xs) (fun hs => hs.flatten)
        (List.replicate 64 1) =
      .ok ⟨[⟨0, 1, List.replicate 64 1, List.replicate 64 1⟩],
        List.replicate 64 1⟩ ∧
    ∀ fr : FragmentedResult,
      parallel_hash_compute (fun xs => xs) fr
        = (fr.fragments.map Fragment.hash).flatten :=
  fragment_kem_amended (fun xs => xs) (fun hs => hs.flatten)
    (List.replicate 64 1) (by simp)

end TZ


